import Mathlib

/-!
Verification development for the ECST entity-component-system engine described in
the thesis sources (`source/30_ecst/*.md` and the unnamed chapter files).  The
definitions below are shallow embeddings of the C++ listings and pseudocode
algorithms printed in those files; theorems check the specification's claims
against them.
-/

namespace Ecst

/-! ### Component bitsets

Dense component bitsets are `std::bitset` values; we model them as natural
numbers with bitwise operations.  `bmatches` embeds the C++ helper `matches`
from `20_metaprogramming.md`:
`bool matches(cb_entity, cb_system) { return (cb_system & cb_entity) == cb_system; }` -/

def bmatches (cb_entity cb_system : Nat) : Bool :=
  (cb_system &&& cb_entity) == cb_system

/-- `req` is bitwise included in `ent` (every set bit of `req` is set in `ent`). -/
def BitIncl (req ent : Nat) : Prop := ∀ i, req.testBit i → ent.testBit i

theorem bmatches_iff (ent req : Nat) : bmatches ent req = true ↔ BitIncl req ent := by
  unfold bmatches BitIncl
  rw [beq_iff_eq]
  constructor
  · intro h i hreq
    have h2 := congrArg (fun n => Nat.testBit n i) h
    simp only [Nat.testBit_land, hreq, Bool.true_and] at h2
    exact h2
  · intro h
    apply Nat.eq_of_testBit_eq
    intro i
    simp only [Nat.testBit_land]
    cases hreq : req.testBit i with
    | false => simp
    | true => simp [h i hreq]

/-! ### Entity table

Entity metadata (`50_storage.md`): per-id component bitset and validity
counter, plus liveness (membership in the used set). -/

structure EntityTable where
  alive : Nat → Bool
  ctr : Nat → Nat
  bitset : Nat → Nat

/-- Modelled from the spec: `reclaim(id)` pushes the id back to the free set,
increments its validity counter and clears its component bitset.  The body of
`context::reclaim` is not printed in the repository; only its call site in
`refresh_impl_kill_entities` (`80_advfeats.md`) is. -/
def EntityTable.reclaim (t : EntityTable) (e : Nat) : EntityTable :=
  if t.alive e then
    { alive := fun j => if j = e then false else t.alive j,
      ctr := fun j => if j = e then t.ctr j + 1 else t.ctr j,
      bitset := fun j => if j = e then 0 else t.bitset j }
  else t

/-- Modelled from the spec: `create()` pops a free id, making it alive; the
validity counter is untouched (it is bumped at reclaim time). -/
def EntityTable.create (t : EntityTable) (e : Nat) : EntityTable :=
  if t.alive e then t
  else
    { alive := fun j => if j = e then true else t.alive j,
      ctr := t.ctr,
      bitset := fun j => if j = e then 0 else t.bitset j }

/-- Set component bit `k` for entity `e` (component addition). -/
def EntityTable.addBit (t : EntityTable) (k e : Nat) : EntityTable :=
  { t with bitset := fun j => if j = e then Nat.lor (t.bitset j) (2 ^ k) else t.bitset j }

/-- Clear component bit `k` for entity `e` (component removal). -/
def EntityTable.removeBit (t : EntityTable) (k e : Nat) : EntityTable :=
  { t with bitset := fun j => if j = e then Nat.ldiff (t.bitset j) (2 ^ k) else t.bitset j }

/-! ### Refresh data model

A refresh state buffers the ids to reclaim (`to_kill`) and the ids to re-match
(`to_match`); every subtask state owns a kill set and an ordered deferred
function list (`20_metaprogramming.md`).  Subscription sets are the per-system
sparse integer sets, modelled at set level as `Finset Nat` (the pseudocode
manipulates them through `Subscribe`/`Unsubscribe` only). -/

structure RefreshState where
  toKill : List Nat
  toMatch : List Nat

structure SubtaskState where
  killSet : List Nat
  deferredFns : List Nat

structure SystemInstanceR where
  states : List SubtaskState

/-- The refresh-visible world: the entity table plus, per system in declaration
order, its required component bitset and its subscription set. -/
structure RWorld where
  table : EntityTable
  subs : List (Nat × Finset Nat)

/-- First half of `ReclaimDeadEntities`: union every subtask's kill set into
`toKill` (instances in declaration order, states in index order). -/
def killUnion (toKill : List Nat) (instances : List SystemInstanceR) : List Nat :=
  toKill ++ instances.flatMap (fun i => i.states.flatMap (fun st => st.killSet))

/-- Unsubscribe every id of `toKill` from one subscription set. -/
def unsubscribeList (toKill : List Nat) (sub : Finset Nat) : Finset Nat :=
  toKill.foldl (fun acc e => acc.erase e) sub

/-- Reclaim every id of `toKill` in the entity table. -/
def reclaimTable (toKill : List Nat) (t : EntityTable) : EntityTable :=
  toKill.foldl EntityTable.reclaim t

/-- `ReclaimDeadEntities` (`20_metaprogramming.md`): union subtask kill sets
into `toKill`, unsubscribe every such id from every system instance, then
reclaim the ids in the entity table. -/
def reclaimDeadEntities (instances : List SystemInstanceR) (toKill : List Nat)
    (w : RWorld) : RWorld :=
  let fullKill := killUnion toKill instances
  { table := reclaimTable fullKill w.table,
    subs := w.subs.map fun p => (p.1, unsubscribeList fullKill p.2) }

/-- `MatchEntitiesToSystems` inner loop for one system instance: every id of
`toMatch` is tested by bitwise inclusion against the system's required bitset
and subscribed or unsubscribed accordingly. -/
def matchOne (cb : Nat → Nat) (req : Nat) (toMatch : List Nat) (sub : Finset Nat) : Finset Nat :=
  toMatch.foldl (fun acc eid => if bmatches (cb eid) req then insert eid acc else acc.erase eid) sub

/-- `MatchEntitiesToSystems` (`20_metaprogramming.md`): run the matching loop
on every system instance (the per-instance loops are independent). -/
def matchEntitiesToSystems (toMatch : List Nat) (w : RWorld) : RWorld :=
  { w with subs := w.subs.map fun p => (p.1, matchOne w.table.bitset p.1 toMatch p.2) }

/-- Refresh stages R2 and R3 in source order: reclamation first, matching
second, the latter reading the post-reclaim bitsets. -/
def refreshReclaimAndMatch (instances : List SystemInstanceR) (rs : RefreshState)
    (w : RWorld) : RWorld :=
  matchEntitiesToSystems rs.toMatch (reclaimDeadEntities instances rs.toKill w)

/-! ### Membership characterizations of the refresh folds -/

theorem mem_unsubscribeList (l : List Nat) (sub : Finset Nat) (x : Nat) :
    x ∈ unsubscribeList l sub ↔ x ∈ sub ∧ x ∉ l := by
  induction l generalizing sub with
  | nil => simp [unsubscribeList]
  | cons a l ih =>
    simp only [unsubscribeList, List.foldl_cons] at *
    rw [ih]
    rw [Finset.mem_erase]
    constructor
    · rintro ⟨⟨hne, hmem⟩, hnl⟩
      exact ⟨hmem, by simp [hne, hnl]⟩
    · rintro ⟨hmem, hn⟩
      simp only [List.mem_cons, not_or] at hn
      exact ⟨⟨hn.1, hmem⟩, hn.2⟩

theorem mem_matchOne (cb : Nat → Nat) (req : Nat) (tm : List Nat) (sub : Finset Nat) (x : Nat) :
    x ∈ matchOne cb req tm sub ↔
      (if x ∈ tm then bmatches (cb x) req = true else x ∈ sub) := by
  induction tm generalizing sub with
  | nil => simp [matchOne]
  | cons a l ih =>
    simp only [matchOne, List.foldl_cons] at *
    rw [ih]
    by_cases hxl : x ∈ l
    · simp [hxl, List.mem_cons]
    · by_cases hxa : x = a
      · subst hxa
        by_cases hm : bmatches (cb x) req = true
        · simp [hxl, hm]
        · simp [hxl, hm, Finset.mem_erase]
      · have : x ∈ a :: l ↔ x ∈ l := by simp [hxa]
        rw [if_congr this rfl rfl]
        by_cases hm : bmatches (cb a) req = true
        · simp [hxl, hm, Finset.mem_insert, hxa]
        · simp [hxl, hm, Finset.mem_erase, hxa]

theorem reclaimTable_alive (l : List Nat) (t : EntityTable) (x : Nat) :
    (reclaimTable l t).alive x = (t.alive x && !(decide (x ∈ l))) := by
  induction l generalizing t with
  | nil => simp [reclaimTable]
  | cons a l ih =>
    simp only [reclaimTable, List.foldl_cons] at *
    rw [ih]
    have hstep : (t.reclaim a).alive x = (t.alive x && !(decide (x = a))) := by
      unfold EntityTable.reclaim
      by_cases ha : t.alive a
      · simp only [ha, if_true]
        by_cases hx : x = a
        · subst hx; simp [ha]
        · simp [hx]
      · simp only [ha, if_false, Bool.false_eq_true]
        by_cases hx : x = a
        · subst hx; simp [ha]
        · simp [hx]
    rw [hstep]
    by_cases hx : x = a
    · subst hx; simp
    · simp [hx]

theorem reclaimTable_bitset (l : List Nat) (t : EntityTable) (x : Nat) (hx : x ∉ l) :
    (reclaimTable l t).bitset x = t.bitset x := by
  induction l generalizing t with
  | nil => simp [reclaimTable]
  | cons a l ih =>
    simp only [List.mem_cons, not_or] at hx
    simp only [reclaimTable, List.foldl_cons] at *
    rw [ih _ hx.2]
    unfold EntityTable.reclaim
    by_cases ha : t.alive a
    · simp [ha, hx.1]
    · simp [ha]

/-! ### Claim C1: the refresh restores the subscription invariant -/

/-- C1.  After a refresh, for every system `s` and entity id: the id is in the
subscription set of `s` iff it is alive and its component bitset includes the
required bitset of `s`.  The hypotheses are the claim's own frame conditions:
every id in `to_match` is alive when matching runs and is not being killed
(created or bitset-modified entities), and every id whose subscription status
could be stale is listed in `to_kill` or `to_match`. -/
theorem C1_refresh_restores_subscription_invariant
    (instances : List SystemInstanceR) (rs : RefreshState) (w : RWorld)
    (hmatch : ∀ id ∈ rs.toMatch,
      w.table.alive id = true ∧ id ∉ killUnion rs.toKill instances)
    (hpre : ∀ p ∈ w.subs, ∀ id : Nat, id ∉ killUnion rs.toKill instances →
      id ∉ rs.toMatch →
      (id ∈ p.2 ↔ (w.table.alive id = true ∧ BitIncl p.1 (w.table.bitset id)))) :
    ∀ p ∈ (refreshReclaimAndMatch instances rs w).subs, ∀ id : Nat,
      id ∈ p.2 ↔
        ((refreshReclaimAndMatch instances rs w).table.alive id = true ∧
          BitIncl p.1 ((refreshReclaimAndMatch instances rs w).table.bitset id)) := by
  intro p hp id
  simp only [refreshReclaimAndMatch, matchEntitiesToSystems, reclaimDeadEntities,
    List.map_map] at hp ⊢
  rcases List.mem_map.mp hp with ⟨q, hq, rfl⟩
  simp only [Function.comp_apply]
  rw [mem_matchOne, reclaimTable_alive]
  by_cases htm : id ∈ rs.toMatch
  · rcases hmatch id htm with ⟨halive, hnk⟩
    rw [if_pos htm, reclaimTable_bitset _ _ _ hnk, halive]
    rw [bmatches_iff]
    simp [hnk]
  · rw [if_neg htm, mem_unsubscribeList]
    by_cases hk : id ∈ killUnion rs.toKill instances
    · simp [hk]
    · rw [reclaimTable_bitset _ _ _ hk]
      simp only [hk, not_false_iff, and_true, decide_eq_true_eq]
      rw [hpre q hq id hk htm]
      simp [hk]

/-- Concrete entity table for the C1 witness: entities 0 and 1 alive, entity 0
holds component 0 (bitset 1). -/
def c1Table : EntityTable :=
  { alive := fun e => decide (e < 2), ctr := fun _ => 0,
    bitset := fun e => if e = 0 then 1 else 0 }

def c1World : RWorld := { table := c1Table, subs := [(1, {0})] }

def c1Instances : List SystemInstanceR := [⟨[⟨[0], []⟩]⟩]

def c1Rs : RefreshState := { toKill := [], toMatch := [1] }

/-- Witness for C1 at a concrete refresh: one system requiring bit 0, entity 0
subscribed but killed by a subtask, entity 1 re-matched. -/
theorem C1_witness :
    (∀ id ∈ c1Rs.toMatch,
      c1World.table.alive id = true ∧ id ∉ killUnion c1Rs.toKill c1Instances) ∧
    (∀ p ∈ c1World.subs, ∀ id : Nat, id ∉ killUnion c1Rs.toKill c1Instances →
      id ∉ c1Rs.toMatch →
      (id ∈ p.2 ↔ (c1World.table.alive id = true ∧ BitIncl p.1 (c1World.table.bitset id)))) ∧
    (∀ p ∈ (refreshReclaimAndMatch c1Instances c1Rs c1World).subs, ∀ id : Nat,
      id ∈ p.2 ↔
        ((refreshReclaimAndMatch c1Instances c1Rs c1World).table.alive id = true ∧
          BitIncl p.1 ((refreshReclaimAndMatch c1Instances c1Rs c1World).table.bitset id))) := by
  have h1 : ∀ id ∈ c1Rs.toMatch,
      c1World.table.alive id = true ∧ id ∉ killUnion c1Rs.toKill c1Instances := by
    decide
  have h2 : ∀ p ∈ c1World.subs, ∀ id : Nat, id ∉ killUnion c1Rs.toKill c1Instances →
      id ∉ c1Rs.toMatch →
      (id ∈ p.2 ↔ (c1World.table.alive id = true ∧ BitIncl p.1 (c1World.table.bitset id))) := by
    intro p hp id hk hm
    simp only [c1World, List.mem_singleton] at hp
    subst hp
    have hid0 : id ≠ 0 := by
      intro h; subst h; exact hk (by decide)
    have hid1 : id ≠ 1 := by
      intro h; subst h; exact hm (by simp [c1Rs])
    constructor
    · intro hmem
      simp only [Finset.mem_singleton] at hmem
      exact absurd hmem hid0
    · rintro ⟨halive, -⟩
      simp only [c1World, c1Table, decide_eq_true_eq] at halive
      interval_cases id
      · exact absurd rfl hid0
      · exact absurd rfl hid1
  exact ⟨h1, h2, C1_refresh_restores_subscription_invariant c1Instances c1Rs c1World h1 h2⟩

/-! ### Claim C8: re-matching is idempotent -/

theorem matchOne_idem (cb : Nat → Nat) (req : Nat) (tm : List Nat) (sub : Finset Nat) :
    matchOne cb req tm (matchOne cb req tm sub) = matchOne cb req tm sub := by
  apply Finset.ext
  intro x
  rw [mem_matchOne, mem_matchOne]
  by_cases hx : x ∈ tm <;> simp [hx]

/-- C8.  Applying the `MatchEntitiesToSystems` phase twice, with the same
`to_match` list and unchanged component bitsets, yields exactly the
subscription sets of applying it once: subscribing a present id and
unsubscribing an absent id are no-ops. -/
theorem C8_rematch_idempotent (toMatch : List Nat) (w : RWorld) :
    matchEntitiesToSystems toMatch (matchEntitiesToSystems toMatch w) =
      matchEntitiesToSystems toMatch w := by
  unfold matchEntitiesToSystems
  simp only [List.map_map]
  congr 1
  apply List.map_congr_left
  intro p _
  rw [Function.comp_apply, matchOne_idem]

/-! ### Claim C7: sparse integer sets (`95_appendix.md`) -/

/-- Sparse integer set: unordered dense array `D` (modelled as the list of its
live slots, so its length is the stored-integer count `last`) and sparse array
`S` mapping an integer to its claimed index in `D` (`none` is the null value). -/
structure SparseIntSet where
  dense : List Nat
  sparse : Nat → Option Nat

def SparseIntSet.empty : SparseIntSet := ⟨[], fun _ => none⟩

/-- `Contains`: integer `i` is in the set iff `S i` is not null. -/
def SparseIntSet.contains (s : SparseIntSet) (i : Nat) : Bool := (s.sparse i).isSome

/-- `AddInteger`: if `i` is absent, append `i` to `D` and make `S i` point to
the new last slot. -/
def SparseIntSet.add (s : SparseIntSet) (i : Nat) : SparseIntSet :=
  if s.contains i then s
  else
    { dense := s.dense ++ [i],
      sparse := fun k => if k = i then some s.dense.length else s.sparse k }

/-- `RemoveInteger`, exactly as printed in the appendix: `iPtr := S i`; if
`D last ≠ D iPtr` then `D iPtr := D last` and `S last := iPtr`; finally
`S i := null` and `last` is decremented (the dense array drops its last slot). -/
def SparseIntSet.remove (s : SparseIntSet) (i : Nat) : SparseIntSet :=
  match s.sparse i with
  | none => s
  | some iPtr =>
    let last := s.dense.length - 1
    let dLast := s.dense.getD last 0
    let dPtr := s.dense.getD iPtr 0
    let dense1 := if dLast ≠ dPtr then s.dense.set iPtr dLast else s.dense
    let sparse1 : Nat → Option Nat :=
      if dLast ≠ dPtr then (fun k => if k = last then some iPtr else s.sparse k) else s.sparse
    { dense := dense1.take last,
      sparse := fun k => if k = i then none else sparse1 k }

/-- The claim's first invariant as an executable check for one integer: if `i`
is present then `D (S i) = i` (an out-of-range pointer also fails the check). -/
def SparseIntSet.pointerOk (s : SparseIntSet) (i : Nat) : Bool :=
  match s.sparse i with
  | none => true
  | some j => s.dense.getD j (i + 1) == i

/-- Number of integers reported present below a universe bound `u`. -/
def SparseIntSet.presentCount (s : SparseIntSet) (u : Nat) : Nat :=
  ((List.range u).filter (fun i => s.contains i)).length

def c7state : SparseIntSet := ((SparseIntSet.empty.add 2).add 5).remove 2

/-- C7 (failing evaluation).  After `add 2; add 5; remove 2` the literal
`RemoveInteger` algorithm corrupts the sparse array: integer `1`, never added,
is reported present with `D (S 1) = 5 ≠ 1`, and the dense length `1` disagrees
with the two integers reported present.  The printed update `S last := iPtr`
writes the sparse slot whose *index* is `last` instead of the slot of the moved
integer `D last` (the intended `S (D last) := iPtr` of the cited reference
implementations), so the claimed invariants do not hold after `remove`. -/
theorem C7_remove_breaks_invariant :
    c7state.contains 1 = true ∧ c7state.pointerOk 1 = false ∧
    c7state.dense.length = 1 ∧ c7state.presentCount 6 = 2 := by
  decide

/-! ### Claim C6: entity handles (`80_advfeats.md`, `50_storage.md`) -/

/-- `invalid_id`: the maximum value representable by the underlying (64-bit)
numeric type. -/
def invalid_id : Nat := 2 ^ 64 - 1

/-- Handle: entity ID plus validity counter (`80_advfeats.md`). -/
structure Handle where
  id : Nat
  ctr : Nat

/-- `context::valid_handle`: returns `true` iff the handle is not a null
handle, i.e. iff it does not point to `invalid_id` (`80_advfeats.md`,
`part_005`: "Returns true if h is not a null handle"). -/
def valid_handle (h : Handle) : Bool := h.id != invalid_id

/-- The metadata-access check through a handle (`80_advfeats.md`): compare the
handle's counter with the counter stored in the entity table; on mismatch the
ID was reused and the pointed-to entity is dead.  This is the check performed
by `context::alive(handle)` and `context::access(handle)`. -/
def handle_ctr_check (t : EntityTable) (h : Handle) : Bool := t.ctr h.id == h.ctr

/-- `create_handle(id)`: a handle storing the id and its current counter. -/
def create_handle (t : EntityTable) (e : Nat) : Handle := ⟨e, t.ctr e⟩

inductive TableOp
| createE (e : Nat)
| reclaimE (e : Nat)

def EntityTable.applyOp (t : EntityTable) : TableOp → EntityTable
  | TableOp.createE e => t.create e
  | TableOp.reclaimE e => t.reclaim e

def EntityTable.applyOps (t : EntityTable) (l : List TableOp) : EntityTable :=
  l.foldl EntityTable.applyOp t

def c6Table0 : EntityTable :=
  { alive := fun _ => false, ctr := fun _ => 0, bitset := fun _ => 0 }

def c6Table1 : EntityTable := c6Table0.create 0

def c6Handle : Handle := create_handle c6Table1 0

def c6Table2 : EntityTable := c6Table1.reclaim 0

/-- C6 (counterexample).  `valid_handle` only checks that the handle is not
null: after entity 0 is created, a handle taken, and the entity reclaimed,
`valid_handle` still returns `true` although the entity is dead, so the claimed
equivalence `valid_handle h ⇔ alive id ∧ generation id = g` fails on the code. -/
theorem C6_counterexample :
    valid_handle c6Handle = true ∧ c6Table2.alive c6Handle.id = false ∧
    ¬(valid_handle c6Handle = true ↔
      (c6Table2.alive c6Handle.id = true ∧ c6Table2.ctr c6Handle.id = c6Handle.ctr)) := by
  decide

theorem applyOps_append (t : EntityTable) (l1 l2 : List TableOp) :
    t.applyOps (l1 ++ l2) = (t.applyOps l1).applyOps l2 := by
  simp [EntityTable.applyOps, List.foldl_append]

theorem applyOp_ctr_le (t : EntityTable) (op : TableOp) (e : Nat) :
    t.ctr e ≤ (t.applyOp op).ctr e := by
  cases op with
  | createE x =>
    unfold EntityTable.applyOp EntityTable.create
    by_cases h : t.alive x <;> simp [h]
  | reclaimE x =>
    unfold EntityTable.applyOp EntityTable.reclaim
    by_cases h : t.alive x
    · simp only [h, if_true]
      by_cases he : e = x <;> simp [he]
    · simp [h]

theorem applyOps_ctr_le (t : EntityTable) (l : List TableOp) (e : Nat) :
    t.ctr e ≤ (t.applyOps l).ctr e := by
  induction l generalizing t with
  | nil => simp [EntityTable.applyOps]
  | cons op l ih =>
    calc t.ctr e ≤ (t.applyOp op).ctr e := applyOp_ctr_le t op e
    _ ≤ ((t.applyOp op).applyOps l).ctr e := ih (t.applyOp op)

theorem applyOps_alive_of_ctr_eq (t : EntityTable) (l : List TableOp) (e : Nat)
    (halive : t.alive e = true) (hctr : (t.applyOps l).ctr e = t.ctr e) :
    (t.applyOps l).alive e = true := by
  induction l generalizing t with
  | nil => simpa [EntityTable.applyOps] using halive
  | cons op l ih =>
    have hstep : (t.applyOps (op :: l)) = (t.applyOp op).applyOps l := rfl
    rw [hstep] at hctr ⊢
    have h1 : t.ctr e ≤ (t.applyOp op).ctr e := applyOp_ctr_le t op e
    have h2 : (t.applyOp op).ctr e ≤ ((t.applyOp op).applyOps l).ctr e :=
      applyOps_ctr_le (t.applyOp op) l e
    have heq : (t.applyOp op).ctr e = t.ctr e := le_antisymm (by omega) h1
    apply ih
    · cases op with
      | createE x =>
        unfold EntityTable.applyOp EntityTable.create
        by_cases h : t.alive x
        · simpa [h] using halive
        · simp only [h, Bool.false_eq_true, if_false]
          by_cases he : e = x <;> simp [he, halive]
      | reclaimE x =>
        unfold EntityTable.applyOp EntityTable.reclaim
        by_cases h : t.alive x
        · by_cases he : e = x
          · subst he
            unfold EntityTable.applyOp EntityTable.reclaim at heq
            simp [h] at heq
          · simp [h, he, halive]
        · simp [h, halive]
    · omega

/-- C6 (amended).  For a handle created for an alive entity: at any later point
the handle's counter check succeeds iff the entity is alive with its counter
still equal to the handle's; and once the entity has been reclaimed (which
increments the counter), the check fails forever, even if the id is reused. -/
theorem C6_handle_validity_amended (t : EntityTable) (e : Nat) (l : List TableOp)
    (halive : t.alive e = true) :
    (handle_ctr_check (t.applyOps l) (create_handle t e) = true ↔
      ((t.applyOps l).alive e = true ∧ (t.applyOps l).ctr e = (create_handle t e).ctr)) ∧
    (∀ l1 l2 : List TableOp, (t.applyOps l1).alive e = true →
      handle_ctr_check (t.applyOps (l1 ++ TableOp.reclaimE e :: l2))
        (create_handle t e) = false) := by
  constructor
  · unfold handle_ctr_check create_handle
    simp only [beq_iff_eq]
    constructor
    · intro h
      exact ⟨applyOps_alive_of_ctr_eq t l e halive h, h⟩
    · intro h
      exact h.2
  · intro l1 l2 halive1
    unfold handle_ctr_check create_handle
    simp only [beq_eq_false_iff_ne, ne_eq]
    intro hbad
    have h1 : t.ctr e ≤ (t.applyOps l1).ctr e := applyOps_ctr_le t l1 e
    have h2 : ((t.applyOps l1).reclaim e).ctr e = (t.applyOps l1).ctr e + 1 := by
      unfold EntityTable.reclaim
      simp [halive1]
    have h3 : (t.applyOps (l1 ++ TableOp.reclaimE e :: l2)) =
        (((t.applyOps l1).applyOp (TableOp.reclaimE e)).applyOps l2) := by
      rw [applyOps_append]
      rfl
    have h4 : ((t.applyOps l1).applyOp (TableOp.reclaimE e)).ctr e ≤
        (t.applyOps (l1 ++ TableOp.reclaimE e :: l2)).ctr e := by
      rw [h3]
      exact applyOps_ctr_le _ l2 e
    have h5 : ((t.applyOps l1).applyOp (TableOp.reclaimE e)).ctr e =
        (t.applyOps l1).ctr e + 1 := h2
    omega

/-- Witness for the amended C6 at a concrete history: create entity 0, take a
handle, reclaim it, recreate the same id — the counter check stays false. -/
theorem C6_witness :
    c6Table1.alive 0 = true ∧
    ((handle_ctr_check (c6Table1.applyOps [TableOp.reclaimE 0, TableOp.createE 0])
        (create_handle c6Table1 0) = true ↔
      ((c6Table1.applyOps [TableOp.reclaimE 0, TableOp.createE 0]).alive 0 = true ∧
        (c6Table1.applyOps [TableOp.reclaimE 0, TableOp.createE 0]).ctr 0 =
          (create_handle c6Table1 0).ctr)) ∧
    (∀ l1 l2 : List TableOp, (c6Table1.applyOps l1).alive 0 = true →
      handle_ctr_check (c6Table1.applyOps (l1 ++ TableOp.reclaimE 0 :: l2))
        (create_handle c6Table1 0) = false)) := by
  refine ⟨by decide, ?_⟩
  exact C6_handle_validity_amended c6Table1 0 [TableOp.reclaimE 0, TableOp.createE 0] (by decide)

/-! ### Claim C5: refresh order — deferred functions first, in declaration order -/

inductive RefreshEv
  | ranDeferred (fid : Nat)
  | unsubscribed (eid : Nat)
  | reclaimed (eid : Nat)
  | matchTested (eid : Nat)
  deriving DecidableEq

/-- Innermost loop of `ExecuteDeferredFunctions`: run one subtask state's
deferred functions in push order.  A deferred function is a closure id
interpreted by `env`; it mutates the world and the refresh state. -/
def runDeferredFns (env : Nat → RWorld × RefreshState → RWorld × RefreshState)
    (fns : List Nat) (acc : (RWorld × RefreshState) × List RefreshEv) :
    (RWorld × RefreshState) × List RefreshEv :=
  fns.foldl (fun a fid => (env fid a.1, a.2 ++ [RefreshEv.ranDeferred fid])) acc

/-- `ExecuteDeferredFunctions` (`20_metaprogramming.md`): for each instance in
declaration order, for each subtask state in index order, for each deferred
function in push order, invoke it (single-threaded). -/
def executeDeferredFunctions (env : Nat → RWorld × RefreshState → RWorld × RefreshState)
    (instances : List SystemInstanceR) (acc : (RWorld × RefreshState) × List RefreshEv) :
    (RWorld × RefreshState) × List RefreshEv :=
  instances.foldl
    (fun a i => i.states.foldl (fun a2 st => runDeferredFns env st.deferredFns a2) a) acc

/-- The declaration-order flattening of all deferred function lists. -/
def deferredOrder (instances : List SystemInstanceR) : List Nat :=
  instances.flatMap fun i => i.states.flatMap fun st => st.deferredFns

/-- The refresh algorithm (`20_metaprogramming.md` overview), instrumented with
an event trace: R1 executes all deferred functions sequentially, R2 reclaims
dead entities, R3 matches changed entities. -/
def refreshRun (env : Nat → RWorld × RefreshState → RWorld × RefreshState)
    (instances : List SystemInstanceR) (rs : RefreshState) (w : RWorld) :
    RWorld × List RefreshEv :=
  let d := executeDeferredFunctions env instances ((w, rs), [])
  let w1 := d.1.1
  let rs1 := d.1.2
  let fullKill := killUnion rs1.toKill instances
  let w2 := reclaimDeadEntities instances rs1.toKill w1
  let w3 := matchEntitiesToSystems rs1.toMatch w2
  (w3, d.2 ++ fullKill.map RefreshEv.unsubscribed ++ fullKill.map RefreshEv.reclaimed ++
    rs1.toMatch.map RefreshEv.matchTested)

theorem runDeferredFns_trace (env : Nat → RWorld × RefreshState → RWorld × RefreshState)
    (fns : List Nat) (acc : (RWorld × RefreshState) × List RefreshEv) :
    (runDeferredFns env fns acc).2 = acc.2 ++ fns.map RefreshEv.ranDeferred := by
  induction fns generalizing acc with
  | nil => simp [runDeferredFns]
  | cons f fns ih =>
    simp only [runDeferredFns, List.foldl_cons] at *
    rw [ih]
    simp

theorem statesFold_trace (env : Nat → RWorld × RefreshState → RWorld × RefreshState)
    (states : List SubtaskState) (acc : (RWorld × RefreshState) × List RefreshEv) :
    (states.foldl (fun a2 st => runDeferredFns env st.deferredFns a2) acc).2 =
      acc.2 ++ (states.flatMap fun st => st.deferredFns).map RefreshEv.ranDeferred := by
  induction states generalizing acc with
  | nil => simp
  | cons st states ih =>
    simp only [List.foldl_cons, List.flatMap_cons, List.map_append] at *
    rw [ih, runDeferredFns_trace]
    simp

theorem executeDeferredFunctions_trace
    (env : Nat → RWorld × RefreshState → RWorld × RefreshState)
    (instances : List SystemInstanceR) (acc : (RWorld × RefreshState) × List RefreshEv) :
    (executeDeferredFunctions env instances acc).2 =
      acc.2 ++ (deferredOrder instances).map RefreshEv.ranDeferred := by
  induction instances generalizing acc with
  | nil => simp [executeDeferredFunctions, deferredOrder]
  | cons i instances ih =>
    simp only [executeDeferredFunctions, deferredOrder, List.foldl_cons, List.flatMap_cons,
      List.map_append] at *
    rw [ih, statesFold_trace]
    simp

/-- C5.  In every refresh, the trace starts with exactly the deferred-function
events, in declaration order over instances, index order over subtask states,
and push order within a state; every reclamation and matching event comes
strictly after all of them. -/
theorem C5_deferred_execution_order
    (env : Nat → RWorld × RefreshState → RWorld × RefreshState)
    (instances : List SystemInstanceR) (rs : RefreshState) (w : RWorld) :
    ∃ rest, (refreshRun env instances rs w).2 =
      (deferredOrder instances).map RefreshEv.ranDeferred ++ rest ∧
      ∀ fid, RefreshEv.ranDeferred fid ∉ rest := by
  simp only [refreshRun, executeDeferredFunctions_trace, List.nil_append, List.append_assoc]
  refine ⟨_, rfl, ?_⟩
  intro fid
  simp

/-! ### Claims C9 and C10: `context::step` (`part_005`) -/

structure Context where
  world : RWorld
  instances : List SystemInstanceR
  rs : RefreshState

/-- The user step body is modelled as a list of step-proxy operations; the body
may exit early by throwing an error. -/
inductive StepOp
  | createEntity (e : Nat)
  | killEntity (e : Nat)
  | addComponent (k e : Nat)
  | removeComponent (k e : Nat)
  | throwErr (code : Nat)

/-- Immediate critical operations of the step proxy: mutate the entity table at
once and record the id into the context's refresh state for the next refresh. -/
def applyStepOp (c : Context) : StepOp → Context
  | StepOp.createEntity e =>
      { c with world := { c.world with table := c.world.table.create e },
               rs := { c.rs with toMatch := c.rs.toMatch ++ [e] } }
  | StepOp.killEntity e =>
      { c with rs := { c.rs with toKill := c.rs.toKill ++ [e] } }
  | StepOp.addComponent k e =>
      { c with world := { c.world with table := c.world.table.addBit k e },
               rs := { c.rs with toMatch := c.rs.toMatch ++ [e] } }
  | StepOp.removeComponent k e =>
      { c with world := { c.world with table := c.world.table.removeBit k e },
               rs := { c.rs with toMatch := c.rs.toMatch ++ [e] } }
  | StepOp.throwErr _ => c

/-- Run the step body: apply operations in order, stopping at the first thrown
error (the remaining operations are skipped, partial mutations kept). -/
def runStepBody : List StepOp → Context → Option Nat × Context
  | [], c => (none, c)
  | StepOp.throwErr code :: _, c => (some code, c)
  | op :: rest, c => runStepBody rest (applyStepOp c op)

/-- `context::refresh`, invoked by the scope guard: run the full refresh
pipeline on the context's refresh state and world. -/
def refreshCtx (env : Nat → RWorld × RefreshState → RWorld × RefreshState)
    (c : Context) : Context :=
  { c with world := (refreshRun env c.instances c.rs c.world).1 }

/-- `ECST_SCOPE_GUARD`: the guard registered at the top of `context::step` runs
when the block exits — on normal return and on exception unwinding alike. -/
def runScopeGuarded (guard : Context → Context) (action : Context → Option Nat × Context)
    (c : Context) : Option Nat × Context :=
  let r := action c
  (r.1, guard r.2)

/-- `context::step` (`part_005`): register the refresh invocation in a scope
guard, clear the refresh state, build the step proxy over it, then execute the
user body. -/
def contextStep (env : Nat → RWorld × RefreshState → RWorld × RefreshState)
    (ops : List StepOp) (c : Context) : Option Nat × Context :=
  runScopeGuarded (refreshCtx env)
    (fun c0 => runStepBody ops { c0 with rs := ⟨[], []⟩ }) c

/-- Operations of the body that execute before the first thrown error. -/
def bodyPrefix : List StepOp → List StepOp
  | [] => []
  | StepOp.throwErr _ :: _ => []
  | op :: rest => op :: bodyPrefix rest

/-- The first error thrown by the body, if any. -/
def firstThrow : List StepOp → Option Nat
  | [] => none
  | StepOp.throwErr code :: _ => some code
  | _ :: rest => firstThrow rest

/-- Entity ids the executed operations mark for reclamation. -/
def recordedKills : List StepOp → List Nat
  | [] => []
  | StepOp.killEntity e :: rest => e :: recordedKills rest
  | _ :: rest => recordedKills rest

/-- Entity ids the executed operations mark for re-matching. -/
def recordedMatches : List StepOp → List Nat
  | [] => []
  | StepOp.createEntity e :: rest => e :: recordedMatches rest
  | StepOp.addComponent _ e :: rest => e :: recordedMatches rest
  | StepOp.removeComponent _ e :: rest => e :: recordedMatches rest
  | _ :: rest => recordedMatches rest

theorem runStepBody_eq (ops : List StepOp) (c : Context) :
    runStepBody ops c = (firstThrow ops, (bodyPrefix ops).foldl applyStepOp c) := by
  induction ops generalizing c with
  | nil => rfl
  | cons op rest ih =>
    cases op with
    | createEntity e => simp only [runStepBody, firstThrow, bodyPrefix, List.foldl_cons, ih]
    | killEntity e => simp only [runStepBody, firstThrow, bodyPrefix, List.foldl_cons, ih]
    | addComponent k e => simp only [runStepBody, firstThrow, bodyPrefix, List.foldl_cons, ih]
    | removeComponent k e => simp only [runStepBody, firstThrow, bodyPrefix, List.foldl_cons, ih]
    | throwErr code => rfl

/-- C9.  For every step body and context, `context::step` surfaces the body's
first error at the step boundary, and the refresh pipeline has been run on the
state produced by the body — the operations before the throw — whether or not
the body exited early. -/
theorem C9_refresh_runs_on_error
    (env : Nat → RWorld × RefreshState → RWorld × RefreshState)
    (ops : List StepOp) (c : Context) :
    (contextStep env ops c).2 =
      refreshCtx env ((bodyPrefix ops).foldl applyStepOp { c with rs := ⟨[], []⟩ }) ∧
    (contextStep env ops c).1 = firstThrow ops := by
  simp only [contextStep, runScopeGuarded]
  rw [runStepBody_eq]
  exact ⟨rfl, rfl⟩

theorem foldl_applyStepOp_rs (ops : List StepOp) (c : Context) :
    (ops.foldl applyStepOp c).rs =
      ⟨c.rs.toKill ++ recordedKills ops, c.rs.toMatch ++ recordedMatches ops⟩ := by
  induction ops generalizing c with
  | nil => simp [recordedKills, recordedMatches]
  | cons op rest ih =>
    cases op with
    | createEntity e => simp [List.foldl_cons, ih, applyStepOp, recordedKills, recordedMatches]
    | killEntity e => simp [List.foldl_cons, ih, applyStepOp, recordedKills, recordedMatches]
    | addComponent k e => simp [List.foldl_cons, ih, applyStepOp, recordedKills, recordedMatches]
    | removeComponent k e =>
      simp [List.foldl_cons, ih, applyStepOp, recordedKills, recordedMatches]
    | throwErr code => simp [List.foldl_cons, ih, applyStepOp, recordedKills, recordedMatches]

/-- C10.  `context::step` clears the refresh-state buffers before the body
runs: the result of a step does not depend on whatever the buffers held
beforehand, and the refresh state consumed by the refresh holds exactly the
kills and matches recorded by the current body's executed operations. -/
theorem C10_step_clears_refresh_state
    (env : Nat → RWorld × RefreshState → RWorld × RefreshState)
    (ops : List StepOp) (c : Context) (rs0 : RefreshState) :
    contextStep env ops { c with rs := rs0 } = contextStep env ops c ∧
    (runStepBody ops { c with rs := ⟨[], []⟩ }).2.rs =
      ⟨recordedKills (bodyPrefix ops), recordedMatches (bodyPrefix ops)⟩ := by
  constructor
  · rfl
  · rw [runStepBody_eq]
    simp [foldl_applyStepOp_rs]

/-! ### Claim C4: inner-executor subtask counting (`60_multithreading.md`) -/

/-- `instance::prepare_and_wait_n_subtasks` initializes its `counter_blocker`
with `n - 1`: one of the `n` subtasks runs on the calling thread inside the
`execute_and_wait_until_zero` body and does not go through the decrementing
`run_in_separate_thread` adapter. -/
def counterBlockerInit (n : Nat) : Nat := n - 1

/-- Subtask states prepared by `_sm.clear_and_prepare(n)`. -/
def statesPrepared (n : Nat) : Nat := n

/-- Slice indices posted to the worker pool: all but the one the calling
thread runs itself (which of the slices that is is left to
`utils::execute_split`; modelled as the last index). -/
def postedSlices (n : Nat) : List Nat := List.range (n - 1)

def callerSlice (n : Nat) : Nat := n - 1

/-- Execution of the inner executor: the calling thread runs its slice inside
the counter blocker's body, then every posted subtask runs and decrements the
counter once.  Returns the final counter and the executed slice list. -/
def innerExecRun (n : Nat) : Nat × List Nat :=
  (postedSlices n).foldl (fun a i => (a.1 - 1, a.2 ++ [i])) (counterBlockerInit n, [callerSlice n])

/-- C4 (counterexample).  At subtask count `k = 2` the counter latch is
instantiated with `1`, not `2` as claimed: the code reads
`counter_blocker b{n - 1}`. -/
theorem C4_counterexample : counterBlockerInit 2 ≠ 2 := by decide

theorem innerExecRun_fold (l : List Nat) (cnt : Nat) (acc : List Nat) :
    l.foldl (fun (a : Nat × List Nat) i => (a.1 - 1, a.2 ++ [i])) (cnt, acc) =
      (cnt - l.length, acc ++ l) := by
  induction l generalizing cnt acc with
  | nil => simp
  | cons x l ih =>
    simp only [List.foldl_cons, ih, List.length_cons]
    refine congrArg₂ Prod.mk (by omega) (by simp)

/-- C4 (amended).  For every subtask count `k ≥ 1`: `k` subtask states are
prepared, the counter latch is instantiated with `k - 1`, `k - 1` subtask
closures are posted to the worker pool while the calling thread executes the
remaining one, each posted subtask decrements the latch exactly once, and the
wait completes — the counter is zero — exactly when all `k` subtasks have
executed. -/
theorem C4_inner_latch_amended (n : Nat) (h : 1 ≤ n) :
    statesPrepared n = n ∧
    counterBlockerInit n = n - 1 ∧
    (postedSlices n).length = n - 1 ∧
    (innerExecRun n).1 = 0 ∧
    (innerExecRun n).2.length = n ∧
    (∀ i, i < n → i ∈ (innerExecRun n).2) := by
  refine ⟨rfl, rfl, by simp [postedSlices], ?_, ?_, ?_⟩
  · unfold innerExecRun
    rw [innerExecRun_fold]
    simp [postedSlices, counterBlockerInit]
  · unfold innerExecRun
    rw [innerExecRun_fold]
    simp only [List.length_append, List.length_cons, List.length_nil, postedSlices,
      callerSlice, List.length_range]
    omega
  · intro i hi
    unfold innerExecRun
    rw [innerExecRun_fold]
    simp only [List.mem_append, List.mem_cons, postedSlices, callerSlice, List.mem_range]
    by_cases hil : i < n - 1
    · right; exact hil
    · left; left; omega

/-! ### Compile-time breadth-first traversal (`95_appendix.md`)

The system dependency DAG is implicit in the signature list: node = system id,
edge `u → v` iff `u` is among `v`'s dependencies.  `bf_traversal::execute`
counts the systems reachable from the start nodes. -/

/-- The dependency id list of system `v` in the signature list. -/
def depsOf (ssl : List (List Nat)) (v : Nat) : List Nat := ssl.getD v []

/-- `dependent_ids_list`: ids of the systems having `u` among their
dependencies, gathered by folding over the signature list. -/
def dependents (ssl : List (List Nat)) (u : Nat) : List Nat :=
  (List.range ssl.length).filter (fun v => u ∈ depsOf ssl v)

/-- Forward dependency edge `u → v`. -/
def Edge (ssl : List (List Nat)) (u v : Nat) : Prop := v ∈ dependents ssl u

/-- BFT context: the queue and the visited-nodes list (`95_appendix.md`);
`bf_traversal::make` starts with the start nodes queued and nothing visited. -/
structure BftCtx where
  queue : List Nat
  visited : List Nat

def bftMake (snl : List Nat) : BftCtx := ⟨snl, []⟩

/-- The unvisited neighbors of the queue's head (`top_node`). -/
def unvisitedNeighbors (ssl : List (List Nat)) (c : BftCtx) : List Nat :=
  (dependents ssl (c.queue.headD 0)).filter (fun x => x ∉ c.visited)

/-- `bf_traversal::step_forward`: dequeue the head, enqueue its unvisited
neighbors and mark them visited. -/
def stepForward (ssl : List (List Nat)) (c : BftCtx) : BftCtx :=
  ⟨c.queue.tail ++ unvisitedNeighbors ssl c, c.visited ++ unvisitedNeighbors ssl c⟩

/-- Termination measure: twice the count of unvisited system ids plus the
queue length. -/
def bftMeasure (ssl : List (List Nat)) (c : BftCtx) : Nat :=
  2 * ((Finset.range ssl.length).filter (fun x => x ∉ c.visited)).card + c.queue.length

theorem unvisitedNeighbors_nodup (ssl : List (List Nat)) (c : BftCtx) :
    (unvisitedNeighbors ssl c).Nodup :=
  ((List.nodup_range _).filter _).filter _

theorem mem_unvisitedNeighbors (ssl : List (List Nat)) (c : BftCtx) (x : Nat) :
    x ∈ unvisitedNeighbors ssl c ↔
      Edge ssl (c.queue.headD 0) x ∧ x ∉ c.visited := by
  unfold unvisitedNeighbors Edge
  simp [List.mem_filter]

theorem bftMeasure_decreases (ssl : List (List Nat)) (c : BftCtx) (h : c.queue ≠ []) :
    bftMeasure ssl (stepForward ssl c) < bftMeasure ssl c := by
  unfold bftMeasure stepForward
  have hnodup : (unvisitedNeighbors ssl c).Nodup := unvisitedNeighbors_nodup ssl c
  have hsub : (unvisitedNeighbors ssl c).toFinset ⊆
      (Finset.range ssl.length).filter (fun x => x ∉ c.visited) := by
    intro x hx
    rw [List.mem_toFinset] at hx
    unfold unvisitedNeighbors dependents at hx
    rw [List.mem_filter] at hx
    rcases hx with ⟨hx1, hx2⟩
    rw [List.mem_filter, List.mem_range] at hx1
    exact Finset.mem_filter.mpr ⟨Finset.mem_range.mpr hx1.1, by simpa using hx2⟩
  have hnew : (Finset.range ssl.length).filter
        (fun x => x ∉ (stepForward ssl c).visited) =
      ((Finset.range ssl.length).filter (fun x => x ∉ c.visited)) \
        (unvisitedNeighbors ssl c).toFinset := by
    ext x
    simp only [stepForward, Finset.mem_filter, Finset.mem_sdiff, List.mem_append,
      List.mem_toFinset, not_or]
    tauto
  have hcard := Finset.card_sdiff hsub
  rw [List.toFinset_card_of_nodup hnodup] at hcard
  have hle : (unvisitedNeighbors ssl c).length ≤
      ((Finset.range ssl.length).filter (fun x => x ∉ c.visited)).card := by
    rw [← List.toFinset_card_of_nodup hnodup]
    exact Finset.card_le_card hsub
  have hq : 1 ≤ c.queue.length := by
    cases hc : c.queue with
    | nil => exact absurd hc h
    | cons a l => simp
  have hlen : ((stepForward ssl c).queue).length =
      c.queue.length - 1 + (unvisitedNeighbors ssl c).length := by
    simp [stepForward, List.length_tail]
  simp only [stepForward] at hnew hlen ⊢
  rw [hnew, hcard, hlen]
  omega

/-- `bf_traversal::execute`: the recursion unfolds via `hana::fix`; the result
appends the dequeued node after the recursive traversal's result. -/
def bftRun (ssl : List (List Nat)) (c : BftCtx) : List Nat :=
  if h : c.queue = [] then []
  else bftRun ssl (stepForward ssl c) ++ [c.queue.headD 0]
termination_by bftMeasure ssl c
decreasing_by exact bftMeasure_decreases ssl c h

/-- `chain_size` (`signature_list::system::chain_size`): the number of nodes
the breadth-first traversal yields from the start node list. -/
def chainSize (ssl : List (List Nat)) (snl : List Nat) : Nat :=
  (bftRun ssl (bftMake snl)).length

/-- One `vis`-avoiding step: an edge whose target is unvisited. -/
def AvoidStep (ssl : List (List Nat)) (vis : List Nat) (x y : Nat) : Prop :=
  Edge ssl x y ∧ y ∉ vis

def AvoidPath (ssl : List (List Nat)) (vis : List Nat) : Nat → Nat → Prop :=
  Relation.ReflTransGen (AvoidStep ssl vis)

/-- Plain forward reachability along dependency edges. -/
def ReachesSys (ssl : List (List Nat)) : Nat → Nat → Prop :=
  Relation.ReflTransGen (Edge ssl)

theorem avoidStep_mono (ssl : List (List Nat)) (vis ext : List Nat) (x y : Nat)
    (h : AvoidStep ssl (vis ++ ext) x y) : AvoidStep ssl vis x y :=
  ⟨h.1, fun hm => h.2 (List.mem_append_left _ hm)⟩

theorem avoidPath_mono (ssl : List (List Nat)) (vis ext : List Nat) (x y : Nat)
    (h : AvoidPath ssl (vis ++ ext) x y) : AvoidPath ssl vis x y :=
  Relation.ReflTransGen.mono (fun a b hab => avoidStep_mono ssl vis ext a b hab) h

theorem transGen_avoid_mono (ssl : List (List Nat)) (vis ext : List Nat) (x y : Nat)
    (h : Relation.TransGen (AvoidStep ssl (vis ++ ext)) x y) :
    Relation.TransGen (AvoidStep ssl vis) x y :=
  Relation.TransGen.mono (fun a b hab => avoidStep_mono ssl vis ext a b hab) h

theorem transGen_avoid_target (ssl : List (List Nat)) (vis : List Nat) (x y : Nat)
    (h : Relation.TransGen (AvoidStep ssl vis) x y) : y ∉ vis := by
  cases h with
  | single hs => exact hs.2
  | tail _ hs => exact hs.2

theorem transGen_rank_lt (ssl : List (List Nat)) (rank : Nat → Nat)
    (hrank : ∀ u v, Edge ssl u v → rank u < rank v) (vis : List Nat) (a b : Nat)
    (h : Relation.TransGen (AvoidStep ssl vis) a b) : rank a < rank b := by
  induction h with
  | single hs => exact hrank _ _ hs.1
  | tail _ hs ih => exact lt_trans ih (hrank _ _ hs.1)

/-- Last-violator splitting: a `vis`-avoiding path either also avoids the newly
visited nodes, or has a suffix starting at one of them that does. -/
theorem avoidPath_split (ssl : List (List Nat)) (vis uns : List Nat) (a v : Nat)
    (h : AvoidPath ssl vis a v) :
    AvoidPath ssl (vis ++ uns) a v ∨ ∃ u ∈ uns, AvoidPath ssl (vis ++ uns) u v := by
  induction h using Relation.ReflTransGen.head_induction_on with
  | refl => exact Or.inl Relation.ReflTransGen.refl
  | @head x y hstep htl ih =>
    rcases ih with ih | ih
    · by_cases hc : y ∈ uns
      · exact Or.inr ⟨y, hc, ih⟩
      · exact Or.inl (Relation.ReflTransGen.head
          ⟨hstep.1, by simp only [List.mem_append, not_or]; exact ⟨hstep.2, hc⟩⟩ ih)
    · exact Or.inr ih

/-- Queue invariant for the traversal: no queue node lies on a nonempty
`vis`-avoiding path from another (or the same) queue node. -/
def QueueIndep (ssl : List (List Nat)) (c : BftCtx) : Prop :=
  ∀ a ∈ c.queue, ∀ b ∈ c.queue,
    Relation.TransGen (AvoidStep ssl c.visited) a b → False

theorem bftRun_correct_aux (ssl : List (List Nat)) (rank : Nat → Nat)
    (hrank : ∀ u v, Edge ssl u v → rank u < rank v) :
    ∀ (n : Nat) (c : BftCtx), bftMeasure ssl c < n → c.queue.Nodup →
      QueueIndep ssl c →
      (bftRun ssl c).Nodup ∧
        (∀ v, v ∈ bftRun ssl c ↔ ∃ a ∈ c.queue, AvoidPath ssl c.visited a v) := by
  intro n
  induction n with
  | zero => intro c hm; omega
  | succ n ih =>
    intro c hm h1 h2
    rw [bftRun]
    by_cases hq : c.queue = []
    · simp [hq]
    · simp only [hq, dite_false]
      obtain ⟨q, vis⟩ := c
      cases hqc : q with
      | nil =>
        subst hqc
        exact absurd rfl hq
      | cons t rest =>
      subst hqc
      have hhead : (⟨t :: rest, vis⟩ : BftCtx).queue.headD 0 = t := rfl
      set uns := unvisitedNeighbors ssl ⟨t :: rest, vis⟩ with huns
      have hstepc : stepForward ssl ⟨t :: rest, vis⟩ = ⟨rest ++ uns, vis ++ uns⟩ := rfl
      have hmemuns : ∀ x, x ∈ uns ↔ Edge ssl t x ∧ x ∉ vis := by
        intro x
        rw [huns, mem_unvisitedNeighbors]
        exact Iff.rfl
      have hnd1 : rest.Nodup := (List.nodup_cons.mp h1).2
      have htrest : t ∉ rest := (List.nodup_cons.mp h1).1
      -- the new queue is duplicate-free
      have hdisj : ∀ x ∈ rest, x ∈ uns → False := by
        intro x hxr hxu
        rcases (hmemuns x).mp hxu with ⟨hedge, hnvis⟩
        exact h2 t (by simp) x (by simp [hxr])
          (Relation.TransGen.single ⟨hedge, hnvis⟩)
      have h1' : (rest ++ uns).Nodup :=
        List.Nodup.append hnd1 (huns ▸ unvisitedNeighbors_nodup ssl _) hdisj
      -- the queue-independence invariant is preserved
      have h2' : QueueIndep ssl ⟨rest ++ uns, vis ++ uns⟩ := by
        intro a ha b hb hpath
        have hbt : b ∉ uns := by
          intro hbu
          exact transGen_avoid_target ssl _ a b hpath (List.mem_append_right _ hbu)
        have hbrest : b ∈ rest := by
          rcases List.mem_append.mp hb with h | h
          · exact h
          · exact absurd h hbt
        have hpath' : Relation.TransGen (AvoidStep ssl vis) a b :=
          transGen_avoid_mono ssl vis uns a b hpath
        rcases List.mem_append.mp ha with har | hau
        · exact h2 a (by simp [har]) b (by simp [hbrest]) hpath'
        · rcases (hmemuns a).mp hau with ⟨hedge, hnvis⟩
          exact h2 t (by simp) b (by simp [hbrest])
            ((Relation.TransGen.single ⟨hedge, hnvis⟩).trans hpath')
      have hdec := bftMeasure_decreases ssl ⟨t :: rest, vis⟩ (by simp)
      rw [hstepc] at hdec
      have hih := ih ⟨rest ++ uns, vis ++ uns⟩ (by omega) h1' h2'
      rw [hstepc]
      simp only at hih
      obtain ⟨ihnd, ihmem⟩ := hih
      -- the dequeued node is not produced again by the recursive traversal
      have htout : t ∉ bftRun ssl ⟨rest ++ uns, vis ++ uns⟩ := by
        intro hmem
        rcases (ihmem t).mp hmem with ⟨a, ha, hpath⟩
        rcases Relation.ReflTransGen.cases_head hpath with heq | ⟨m, hstep, hrtg⟩
        · subst heq
          rcases List.mem_append.mp ha with har | hau
          · exact htrest har
          · rcases (hmemuns a).mp hau with ⟨hedge, _⟩
            exact absurd (hrank a a hedge) (lt_irrefl _)
        · have hpath2 : Relation.TransGen (AvoidStep ssl (vis ++ uns)) a t :=
            Relation.TransGen.head' hstep hrtg
          rcases List.mem_append.mp ha with har | hau
          · exact h2 a (by simp [har]) t (by simp)
              (transGen_avoid_mono ssl vis uns a t hpath2)
          · rcases (hmemuns a).mp hau with ⟨hedge, hnvis⟩
            have : Relation.TransGen (AvoidStep ssl vis) t t :=
              (Relation.TransGen.single ⟨hedge, hnvis⟩).trans
                (transGen_avoid_mono ssl vis uns a t hpath2)
            exact absurd (transGen_rank_lt ssl rank hrank vis t t this) (lt_irrefl _)
      constructor
      · rw [List.nodup_append]
        exact ⟨ihnd, List.nodup_singleton t, by
          intro x hx hxt
          rw [List.mem_singleton] at hxt
          subst hxt
          exact htout hx⟩
      · intro v
        rw [List.mem_append, List.mem_singleton]
        constructor
        · rintro (hv | rfl)
          · rcases (ihmem v).mp hv with ⟨a, ha, hpath⟩
            rcases List.mem_append.mp ha with har | hau
            · exact ⟨a, by simp [har], avoidPath_mono ssl vis uns a v hpath⟩
            · rcases (hmemuns a).mp hau with ⟨hedge, hnvis⟩
              exact ⟨t, by simp, Relation.ReflTransGen.head ⟨hedge, hnvis⟩
                (avoidPath_mono ssl vis uns a v hpath)⟩
          · exact ⟨v, by simp, Relation.ReflTransGen.refl⟩
        · rintro ⟨a, ha, hpath⟩
          rcases avoidPath_split ssl vis uns a v hpath with hsp | ⟨u, hu, hsp⟩
          · rcases List.mem_cons.mp ha with rfl | har
            · rcases Relation.ReflTransGen.cases_head hsp with heq | ⟨m, hstep, _⟩
              · exact Or.inr heq.symm
              · exfalso
                have hmuns : m ∈ uns :=
                  (hmemuns m).mpr ⟨hstep.1, fun hmv =>
                    hstep.2 (List.mem_append_left _ hmv)⟩
                exact hstep.2 (List.mem_append_right _ hmuns)
            · exact Or.inl ((ihmem v).mpr ⟨a, List.mem_append_left _ har, hsp⟩)
          · exact Or.inl ((ihmem v).mpr ⟨u, List.mem_append_right _ hu, hsp⟩)

/-- Correctness of the compile-time BFT under the documented preconditions:
distinct, pairwise-independent start nodes and an acyclic DAG (witnessed by a
topological rank).  The traversal lists each reachable system exactly once. -/
theorem bftRun_reachable (ssl : List (List Nat)) (rank : Nat → Nat)
    (hrank : ∀ u v, Edge ssl u v → rank u < rank v) (snl : List Nat)
    (hnodup : snl.Nodup)
    (hindep : ∀ a ∈ snl, ∀ b ∈ snl, Relation.TransGen (Edge ssl) a b → False) :
    (bftRun ssl (bftMake snl)).Nodup ∧
      ∀ v, v ∈ bftRun ssl (bftMake snl) ↔ ∃ a ∈ snl, ReachesSys ssl a v := by
  have h2 : QueueIndep ssl (bftMake snl) := by
    intro a ha b hb hpath
    exact hindep a ha b hb
      (Relation.TransGen.mono (fun x y hxy => hxy.1) hpath)
  obtain ⟨hnd, hmem⟩ := bftRun_correct_aux ssl rank hrank
    (bftMeasure ssl (bftMake snl) + 1) (bftMake snl) (by omega) hnodup h2
  refine ⟨hnd, fun v => ?_⟩
  rw [hmem v]
  constructor
  · rintro ⟨a, ha, hpath⟩
    exact ⟨a, ha, Relation.ReflTransGen.mono (fun x y hxy => hxy.1) hpath⟩
  · rintro ⟨a, ha, hpath⟩
    refine ⟨a, ha, Relation.ReflTransGen.mono (fun x y hxy => ⟨hxy, ?_⟩) hpath⟩
    simp [bftMake]

/-! ### Claims C2 and C3: the `atomic_counter` outer scheduler
(`60_multithreading.md`)

`atomic_counter::task::run` executes the system body, decrements the global
"remaining systems" counter blocker, then decrements each dependent task's
remaining-dependencies counter, posting the dependent to the thread pool when
its counter reaches zero.  The model interleaves the per-task threads at the
granularity of those actions; the system body contributes a begin and an end
event so that overlapping bodies are representable. -/

inductive Act
  | abegin
  | aend
  | adecG
  | adecDep (d : Nat)
  deriving DecidableEq

/-- The action list of the task assigned to system `sid`
(`atomic_counter::task::run` in source order). -/
def program (ssl : List (List Nat)) (sid : Nat) : List Act :=
  Act.abegin :: Act.aend :: Act.adecG :: (dependents ssl sid).map Act.adecDep

structure Thread where
  sid : Nat
  rest : List Act
  deriving DecidableEq

inductive Ev
  | evBegin (sid : Nat)
  | evEnd (sid : Nat)
  deriving DecidableEq

structure SchedConfig where
  threads : List Thread
  remaining : Nat → Nat
  counter : Nat
  trace : List Ev

/-- Execute the head action `a` of the thread at position `i`. -/
def applyAct (ssl : List (List Nat)) (c : SchedConfig) (i : Nat) (t : Thread)
    (a : Act) (rest : List Act) : SchedConfig :=
  match a with
  | Act.abegin =>
      { c with threads := c.threads.set i ⟨t.sid, rest⟩,
               trace := c.trace ++ [Ev.evBegin t.sid] }
  | Act.aend =>
      { c with threads := c.threads.set i ⟨t.sid, rest⟩,
               trace := c.trace ++ [Ev.evEnd t.sid] }
  | Act.adecG =>
      { c with threads := c.threads.set i ⟨t.sid, rest⟩,
               counter := c.counter - 1 }
  | Act.adecDep d =>
      { c with threads := (c.threads.set i ⟨t.sid, rest⟩) ++
                 (if c.remaining d - 1 = 0 then [⟨d, program ssl d⟩] else []),
               remaining := fun v => if v = d then c.remaining d - 1 else c.remaining v }

/-- One scheduler step: some thread executes its next action. -/
inductive SchedStep (ssl : List (List Nat)) : SchedConfig → SchedConfig → Prop
  | mk (c : SchedConfig) (i : Nat) (t : Thread) (a : Act) (rest : List Act)
      (hget : c.threads.get? i = some t) (ht : t.rest = a :: rest) :
      SchedStep ssl c (applyAct ssl c i t a rest)

/-- Modelled from the spec: each task's remaining-dependencies counter is
initialized to its in-degree within the reachable subgraph (the counter
initialization code is not printed in the repository). -/
def indegR (ssl : List (List Nat)) (reach : List Nat) (v : Nat) : Nat :=
  ((depsOf ssl v).filter (fun u => u ∈ reach)).length

/-- `atomic_counter::execute` and `start_execution`: the counter blocker is
initialized with `chain_size` and one task per start system is posted. -/
def initConfig (ssl : List (List Nat)) (snl : List Nat) : SchedConfig :=
  { threads := snl.map (fun r => ⟨r, program ssl r⟩),
    remaining := indegR ssl (bftRun ssl (bftMake snl)),
    counter := chainSize ssl snl,
    trace := [] }

/-- Configurations reachable during one `execute_systems_from` call. -/
def SchedReach (ssl : List (List Nat)) (snl : List Nat) (c : SchedConfig) : Prop :=
  Relation.ReflTransGen (SchedStep ssl) (initConfig ssl snl) c

/-- All posted work has been executed. -/
def Terminal (c : SchedConfig) : Prop := ∀ t ∈ c.threads, t.rest = []

/-! #### Counting executed actions -/

def threadCount (c : SchedConfig) (v : Nat) : Nat :=
  c.threads.countP (fun t => decide (t.sid = v))

def decsDone (ssl : List (List Nat)) (c : SchedConfig) (v : Nat) : Nat :=
  c.threads.countP (fun t =>
    decide (Act.adecDep v ∈ program ssl t.sid ∧ Act.adecDep v ∉ t.rest))

def decGsDone (c : SchedConfig) : Nat :=
  c.threads.countP (fun t => decide (Act.adecG ∉ t.rest))

def endsDone (c : SchedConfig) (v : Nat) : Nat :=
  c.threads.countP (fun t => decide (t.sid = v ∧ Act.aend ∉ t.rest))

def beginsDone (c : SchedConfig) (v : Nat) : Nat :=
  c.threads.countP (fun t => decide (t.sid = v ∧ Act.abegin ∉ t.rest))

theorem countP_set_eq {α : Type} (l : List α) (i : Nat) (x y : α) (p : α → Bool)
    (hy : l.get? i = some y) :
    (l.set i x).countP p + (if p y then 1 else 0) =
      l.countP p + (if p x then 1 else 0) := by
  induction l generalizing i with
  | nil => simp at hy
  | cons a l ih =>
    cases i with
    | zero =>
      simp only [List.get?_cons_zero, Option.some_inj] at hy
      simp only [List.set_cons_zero, List.countP_cons, ← hy]
      by_cases hpa : p a <;> by_cases hpx : p x <;> simp [hpa, hpx] <;> omega
    | succ i =>
      simp only [List.get?_cons_succ] at hy
      have h2 := ih i hy
      simp only [List.set_cons_succ, List.countP_cons]
      by_cases hpa : p a <;> simp only [hpa, if_true, if_false] <;> omega

theorem dependents_nodup (ssl : List (List Nat)) (u : Nat) : (dependents ssl u).Nodup :=
  (List.nodup_range _).filter _

theorem program_nodup (ssl : List (List Nat)) (sid : Nat) : (program ssl sid).Nodup := by
  unfold program
  refine List.nodup_cons.mpr ⟨?_, List.nodup_cons.mpr ⟨?_, List.nodup_cons.mpr ⟨?_, ?_⟩⟩⟩
  · simp only [List.mem_cons, List.mem_map]
    rintro (h | h | ⟨d, _, h⟩) <;> cases h
  · simp only [List.mem_cons, List.mem_map]
    rintro (h | ⟨d, _, h⟩) <;> cases h
  · simp only [List.mem_map]
    rintro ⟨d, _, h⟩
    cases h
  · exact (dependents_nodup ssl sid).map (fun a b hab => by cases hab; rfl)

/-- A suffix of a duplicate-free list starting with `a` does not contain `a`
again. -/
theorem head_not_mem_of_suffix {α : Type} {a : α} {s pr : List α}
    (h : (a :: s) <:+ pr) (hnd : pr.Nodup) : a ∉ s :=
  (List.nodup_cons.mp (h.sublist.nodup hnd)).1

/-- In a task program, a thread that has executed one of its dependent
decrements has already executed `aend`. -/
theorem aend_done_of_dec_done (ssl : List (List Nat)) (u v : Nat) (s : List Act)
    (hsuf : s <:+ program ssl u) (hmem : Act.adecDep v ∈ program ssl u)
    (hnot : Act.adecDep v ∉ s) : Act.aend ∉ s := by
  intro haend
  rcases List.suffix_cons_iff.mp hsuf with rfl | hsuf2
  · exact hnot hmem
  rcases List.suffix_cons_iff.mp hsuf2 with rfl | hsuf3
  · apply hnot
    simp only [program, List.mem_cons] at hmem
    rcases hmem with h | h | h | h
    · cases h
    · cases h
    · simp [h]
    · simp [h]
  rcases List.suffix_cons_iff.mp hsuf3 with rfl | hsuf4
  · apply hnot
    simp only [program, List.mem_cons] at hmem
    rcases hmem with h | h | h | h
    · cases h
    · cases h
    · simp [h]
    · simp [h]
  · rcases hsuf4 with ⟨pre, hpre⟩
    have hx : Act.aend ∈ pre ++ s := List.mem_append_right pre haend
    rw [hpre] at hx
    rcases List.mem_map.mp hx with ⟨d, _, hd⟩
    cases hd

/-- A thread that has executed its global decrement has already executed
`aend`. -/
theorem aend_done_of_decG_done (ssl : List (List Nat)) (u : Nat) (s : List Act)
    (hsuf : s <:+ program ssl u) (hnot : Act.adecG ∉ s) : Act.aend ∉ s := by
  intro haend
  rcases List.suffix_cons_iff.mp hsuf with rfl | hsuf2
  · exact hnot (by simp [program])
  rcases List.suffix_cons_iff.mp hsuf2 with rfl | hsuf3
  · exact hnot (by simp)
  rcases List.suffix_cons_iff.mp hsuf3 with rfl | hsuf4
  · exact hnot (by simp)
  · rcases hsuf4 with ⟨pre, hpre⟩
    have hx : Act.aend ∈ pre ++ s := List.mem_append_right pre haend
    rw [hpre] at hx
    rcases List.mem_map.mp hx with ⟨d, _, hd⟩
    cases hd

/-! #### Key-counting combinatorics -/

theorem two_le_countP {β : Type} {p : β → Bool} {l : List β} {a b : β}
    (ha : a ∈ l) (hb : b ∈ l) (hne : a ≠ b) (hpa : p a = true) (hpb : p b = true) :
    2 ≤ l.countP p := by
  induction l with
  | nil => cases ha
  | cons x xs ih =>
    rw [List.countP_cons]
    rcases List.mem_cons.mp ha with rfl | hax
    · have hbxs : b ∈ xs := by
        rcases List.mem_cons.mp hb with rfl | h
        · exact absurd rfl hne
        · exact h
      have h1 : 0 < xs.countP p := List.countP_pos.mpr ⟨b, hbxs, hpb⟩
      simp only [hpa, if_true]
      omega
    · rcases List.mem_cons.mp hb with rfl | hbxs
      · have h1 : 0 < xs.countP p := List.countP_pos.mpr ⟨a, hax, hpa⟩
        simp only [hpb, if_true]
        omega
      · have := ih hax hbxs
        omega

/-- At most `|K|` list elements satisfy `P` when every satisfying element's
key lies in the duplicate-free list `K` and each key is hit at most once. -/
theorem countP_le_of_keys {β : Type} (key : β → Nat) :
    ∀ (K : List Nat) (L : List β), K.Nodup →
      (∀ t ∈ L, key t ∈ K) →
      (∀ w, (L.filter (fun t => decide (key t = w))).length ≤ 1) →
      L.length ≤ K.length := by
  intro K
  induction K with
  | nil =>
    intro L _ hmem _
    cases hL : L with
    | nil => simp
    | cons t ts =>
      exact absurd (hmem t (by simp [hL])) (by simp)
  | cons w K ih =>
    intro L hK hmem huniq
    have hsplit : L.length =
        (L.filter (fun t => decide (key t = w))).length +
          (L.filter (fun t => !decide (key t = w))).length := by
      exact List.length_eq_length_filter_add _
    have hrec : (L.filter (fun t => !decide (key t = w))).length ≤ K.length := by
      apply ih _ (List.nodup_cons.mp hK).2
      · intro t ht
        rcases List.mem_filter.mp ht with ⟨htL, htw⟩
        have := hmem t htL
        simp only [Bool.not_eq_true', decide_eq_false_iff_not] at htw
        rcases List.mem_cons.mp this with rfl | h
        · exact absurd rfl htw
        · exact h
      · intro w2
        calc ((L.filter (fun t => !decide (key t = w))).filter
              (fun t => decide (key t = w2))).length
            ≤ (L.filter (fun t => decide (key t = w2))).length := by
              apply List.Sublist.length_le
              exact List.Sublist.filter _ (List.filter_sublist L)
          _ ≤ 1 := huniq w2
    have h1 := huniq w
    simp only [List.length_cons]
    omega

/-- If at least `|K|` elements satisfy the membership discipline above, every
key of `K` is realized. -/
theorem keys_covered {β : Type} (key : β → Nat) :
    ∀ (K : List Nat) (L : List β), K.Nodup →
      (∀ t ∈ L, key t ∈ K) →
      (∀ w, (L.filter (fun t => decide (key t = w))).length ≤ 1) →
      K.length ≤ L.length →
      ∀ w ∈ K, ∃ t ∈ L, key t = w := by
  intro K
  induction K with
  | nil => intro L _ _ _ _ w hw; cases hw
  | cons w0 K ih =>
    intro L hK hmem huniq hlen w hw
    have hw0 : ∃ t ∈ L, key t = w0 := by
      by_contra hno
      push_neg at hno
      have : L.length ≤ K.length := by
        apply countP_le_of_keys key K L (List.nodup_cons.mp hK).2
        · intro t ht
          rcases List.mem_cons.mp (hmem t ht) with h | h
          · exact absurd h (hno t ht)
          · exact h
        · exact huniq
      simp only [List.length_cons] at hlen
      omega
    rcases List.mem_cons.mp hw with rfl | hwK
    · exact hw0
    · have hres : ∃ t ∈ L.filter (fun t => !decide (key t = w0)), key t = w := by
        apply ih (L.filter (fun t => !decide (key t = w0)))
          (List.nodup_cons.mp hK).2
        · intro t ht
          rcases List.mem_filter.mp ht with ⟨htL, htw⟩
          simp only [Bool.not_eq_true', decide_eq_false_iff_not] at htw
          rcases List.mem_cons.mp (hmem t htL) with rfl | h
          · exact absurd rfl htw
          · exact h
        · intro w2
          calc ((L.filter (fun t => !decide (key t = w0))).filter
                (fun t => decide (key t = w2))).length
              ≤ (L.filter (fun t => decide (key t = w2))).length := by
                apply List.Sublist.length_le
                exact List.Sublist.filter _ (List.filter_sublist L)
            _ ≤ 1 := huniq w2
        · have hsplit : L.length =
              (L.filter (fun t => decide (key t = w0))).length +
                (L.filter (fun t => !decide (key t = w0))).length := by
            exact List.length_eq_length_filter_add _
          have h1 := huniq w0
          have h2 : 0 < (L.filter (fun t => decide (key t = w0))).length := by
            rcases hw0 with ⟨t, htL, htw⟩
            have : t ∈ L.filter (fun t => decide (key t = w0)) :=
              List.mem_filter.mpr ⟨htL, by simp [htw]⟩
            exact List.length_pos.mpr (fun hnil => by simp [hnil] at this)
          simp only [List.length_cons] at hlen
          omega
        · exact hwK
      rcases hres with ⟨t, htf, htw⟩
      exact ⟨t, (List.mem_filter.mp htf).1, htw⟩

/-! #### Facts about the reachable system set -/

/-- Properties of the BFT result used by the scheduler proofs, derived from
the documented preconditions (acyclic DAG, independent start systems,
duplicate-free dependency lists). -/
structure ReachFacts (ssl : List (List Nat)) (snl : List Nat) (reach : List Nat) : Prop where
  nodup : reach.Nodup
  closed : ∀ v ∈ reach, ∀ d, Edge ssl v d → d ∈ reach
  roots : ∀ r ∈ snl, r ∈ reach
  rootsIndeg : ∀ r ∈ snl, indegR ssl reach r = 0
  nonRootIndeg : ∀ v ∈ reach, v ∉ snl → 0 < indegR ssl reach v
  depsNodup : ∀ v, (depsOf ssl v).Nodup

theorem edge_of_dep (ssl : List (List Nat)) (u v : Nat) (hu : u ∈ depsOf ssl v)
    (hv : v < ssl.length) : Edge ssl u v := by
  unfold Edge dependents
  rw [List.mem_filter, List.mem_range]
  exact ⟨hv, by simpa using hu⟩

theorem dep_of_edge (ssl : List (List Nat)) (u v : Nat) (h : Edge ssl u v) :
    u ∈ depsOf ssl v ∧ v < ssl.length := by
  unfold Edge dependents at h
  rw [List.mem_filter, List.mem_range] at h
  exact ⟨by simpa using h.2, h.1⟩

theorem depsOf_nil_of_ge (ssl : List (List Nat)) (v : Nat) (h : ssl.length ≤ v) :
    depsOf ssl v = [] := by
  unfold depsOf
  exact List.getD_eq_default _ _ h

theorem reachFacts_of (ssl : List (List Nat)) (rank : Nat → Nat)
    (hrank : ∀ u v, Edge ssl u v → rank u < rank v) (snl : List Nat)
    (hnodup : snl.Nodup)
    (hindep : ∀ a ∈ snl, ∀ b ∈ snl, Relation.TransGen (Edge ssl) a b → False)
    (hdeps : ∀ l ∈ ssl, l.Nodup) :
    ReachFacts ssl snl (bftRun ssl (bftMake snl)) := by
  obtain ⟨hnd, hmem⟩ := bftRun_reachable ssl rank hrank snl hnodup hindep
  refine ⟨hnd, ?_, ?_, ?_, ?_, ?_⟩
  · intro v hv d hedge
    rcases (hmem v).mp hv with ⟨r, hr, hpath⟩
    exact (hmem d).mpr ⟨r, hr, hpath.tail hedge⟩
  · intro r hr
    exact (hmem r).mpr ⟨r, hr, Relation.ReflTransGen.refl⟩
  · intro r hr
    by_cases hlen : r < ssl.length
    · unfold indegR
      rw [List.length_eq_zero]
      rw [List.filter_eq_nil]
      intro u hu
      simp only [decide_eq_true_eq]
      intro hureach
      rcases (hmem u).mp hureach with ⟨r2, hr2, hpath⟩
      exact hindep r2 hr2 r hr
        (Relation.TransGen.tail' hpath (edge_of_dep ssl u r hu hlen))
    · unfold indegR
      rw [depsOf_nil_of_ge ssl r (by omega)]
      rfl
  · intro v hv hnot
    rcases (hmem v).mp hv with ⟨r, hr, hpath⟩
    rcases (Relation.ReflTransGen.cases_tail hpath) with heq | ⟨u, hru, huv⟩
    · exact absurd (heq ▸ hr) hnot
    · have hu : u ∈ bftRun ssl (bftMake snl) := (hmem u).mpr ⟨r, hr, hru⟩
      rcases dep_of_edge ssl u v huv with ⟨hud, _⟩
      unfold indegR
      rw [List.length_pos]
      intro hnil
      have : u ∈ (depsOf ssl v).filter (fun x => decide (x ∈ bftRun ssl (bftMake snl))) :=
        List.mem_filter.mpr ⟨hud, by simpa using hu⟩
      simp [hnil] at this
  · intro v
    unfold depsOf
    by_cases hlen : v < ssl.length
    · rw [List.getD_eq_getElem _ _ hlen]
      exact hdeps _ (List.getElem_mem _)
    · rw [List.getD_eq_default _ _ (by omega)]
      exact List.nodup_nil

theorem countP_eq_le_one_of_nodup {l : List Nat} (h : l.Nodup) (v : Nat) :
    l.countP (fun r => decide (r = v)) ≤ 1 := by
  induction l with
  | nil => simp
  | cons a l ih =>
    rw [List.countP_cons]
    rcases List.nodup_cons.mp h with ⟨hna, hnd⟩
    by_cases hav : a = v
    · subst hav
      have hz : l.countP (fun r => decide (r = a)) = 0 :=
        List.countP_eq_zero.mpr (fun x hx => by
          simp only [decide_eq_true_eq]
          rintro rfl
          exact hna hx)
      simp [hz]
    · have h2 := ih hnd
      rw [decide_eq_false hav]
      simp only [Bool.false_eq_true, if_false]
      omega

/-! #### The scheduler invariant -/

/-- Inductive invariant of the scheduler model.  `reach` is the BFT result. -/
structure SchedInv (ssl : List (List Nat)) (snl : List Nat) (reach : List Nat)
    (c : SchedConfig) : Prop where
  suffix : ∀ t ∈ c.threads, t.rest <:+ program ssl t.sid
  uniq : ∀ v, threadCount c v ≤ 1
  inReach : ∀ t ∈ c.threads, t.sid ∈ reach
  decsLe : ∀ v, decsDone ssl c v ≤ indegR ssl reach v
  rem : ∀ v, c.remaining v = indegR ssl reach v - decsDone ssl c v
  started : ∀ v, 0 < threadCount c v ↔
      (v ∈ snl ∨ (v ∈ reach ∧ 0 < indegR ssl reach v ∧
        decsDone ssl c v = indegR ssl reach v))
  beginsTr : ∀ v, c.trace.count (Ev.evBegin v) = beginsDone c v
  endsTr : ∀ v, c.trace.count (Ev.evEnd v) = endsDone c v
  cnt : c.counter = chainSize ssl snl - decGsDone c
  order : ∀ u v, u ∈ depsOf ssl v → u ∈ reach → v ∈ reach →
      ∀ t1 t2, c.trace = t1 ++ Ev.evBegin v :: t2 → Ev.evEnd u ∈ t1

theorem countP_set_same {α : Type} {l : List α} {i : Nat} (x : α) {y : α} {p : α → Bool}
    (hy : l.get? i = some y) (hp : p y = p x) :
    (l.set i x).countP p = l.countP p := by
  have h := countP_set_eq l i x y p hy
  rw [hp] at h
  omega

theorem countP_set_inc {α : Type} {l : List α} {i : Nat} (x : α) {y : α} {p : α → Bool}
    (hy : l.get? i = some y) (hpy : p y = false) (hpx : p x = true) :
    (l.set i x).countP p = l.countP p + 1 := by
  have h := countP_set_eq l i x y p hy
  rw [hpy, hpx] at h
  simp at h
  omega

theorem countP_set_same_sid {l : List Thread} {i : Nat} {y : Thread} (r : List Act)
    (hy : l.get? i = some y) (v : Nat) :
    (l.set i ⟨y.sid, r⟩).countP (fun th => decide (th.sid = v)) =
      l.countP (fun th => decide (th.sid = v)) :=
  countP_set_same ⟨y.sid, r⟩ hy rfl

theorem adecDep_mem_program_iff (ssl : List (List Nat)) (sid v : Nat) :
    Act.adecDep v ∈ program ssl sid ↔ Edge ssl sid v := by
  unfold program Edge
  simp only [List.mem_cons, List.mem_map]
  constructor
  · rintro (h | h | h | ⟨d, hd, hdv⟩)
    · cases h
    · cases h
    · cases h
    · cases hdv
      exact hd
  · intro h
    exact Or.inr (Or.inr (Or.inr ⟨v, h, rfl⟩))

/-- The membership characterization of a started thread's system. -/
theorem thread_mem_iff_threadCount (c : SchedConfig) (v : Nat) :
    (∃ t ∈ c.threads, t.sid = v) ↔ 0 < threadCount c v := by
  unfold threadCount
  rw [List.countP_pos]
  constructor
  · rintro ⟨t, ht, rfl⟩
    exact ⟨t, ht, by simp⟩
  · rintro ⟨t, ht, hp⟩
    simp only [decide_eq_true_eq] at hp
    exact ⟨t, ht, hp⟩

/-- In an invariant configuration, a started non-root system's reachable
dependencies have all ended. -/
theorem deps_ended_of_started (ssl : List (List Nat)) (snl reach : List Nat)
    (hrf : ReachFacts ssl snl reach) (c : SchedConfig)
    (hinv : SchedInv ssl snl reach c) (v : Nat)
    (hth : ∃ t ∈ c.threads, t.sid = v) (hnr : v ∉ snl) :
    ∀ u, u ∈ depsOf ssl v → u ∈ reach → Ev.evEnd u ∈ c.trace := by
  intro u hu hur
  have htc := (thread_mem_iff_threadCount c v).mp hth
  rcases (hinv.started v).mp htc with hsnl | ⟨hvr, hpos, hdecs⟩
  · exact absurd hsnl hnr
  -- every reachable dependency of `v` has a thread past its decrement
  have hKnodup : ((depsOf ssl v).filter (fun u => decide (u ∈ reach))).Nodup :=
    (hrf.depsNodup v).filter _
  have hcover := keys_covered Thread.sid
    ((depsOf ssl v).filter (fun u => decide (u ∈ reach)))
    (c.threads.filter (fun t =>
      decide (Act.adecDep v ∈ program ssl t.sid ∧ Act.adecDep v ∉ t.rest)))
    hKnodup
    (by
      intro t ht
      rcases List.mem_filter.mp ht with ⟨htmem, htp⟩
      simp only [decide_eq_true_eq] at htp
      have hedge : Edge ssl t.sid v := (adecDep_mem_program_iff ssl t.sid v).mp htp.1
      rcases dep_of_edge ssl t.sid v hedge with ⟨hdep, _⟩
      exact List.mem_filter.mpr ⟨hdep, by
        simpa using hinv.inReach t htmem⟩)
    (by
      intro w
      calc ((c.threads.filter (fun t =>
            decide (Act.adecDep v ∈ program ssl t.sid ∧ Act.adecDep v ∉ t.rest))).filter
            (fun t => decide (t.sid = w))).length
          ≤ (c.threads.filter (fun t => decide (t.sid = w))).length := by
            apply List.Sublist.length_le
            exact List.Sublist.filter _ (List.filter_sublist _)
        _ = c.threads.countP (fun t => decide (t.sid = w)) :=
            (List.countP_eq_length_filter _ _).symm
        _ ≤ 1 := hinv.uniq w)
    (by
      have hL : decsDone ssl c v = (c.threads.filter (fun t =>
          decide (Act.adecDep v ∈ program ssl t.sid ∧ Act.adecDep v ∉ t.rest))).length :=
        List.countP_eq_length_filter _ _
      have hK : ((depsOf ssl v).filter (fun u => decide (u ∈ reach))).length =
          indegR ssl reach v := rfl
      omega)
    u (List.mem_filter.mpr ⟨hu, by simpa using hur⟩)
  rcases hcover with ⟨t, htf, htsid⟩
  rcases List.mem_filter.mp htf with ⟨htmem, htp⟩
  simp only [decide_eq_true_eq] at htp
  have haend : Act.aend ∉ t.rest :=
    aend_done_of_dec_done ssl t.sid v t.rest (hinv.suffix t htmem) htp.1 htp.2
  have hends : 0 < endsDone c u := by
    unfold endsDone
    rw [List.countP_pos]
    exact ⟨t, htmem, by simp [htsid, haend]⟩
  have := hinv.endsTr u
  rw [← this] at hends
  exact List.count_pos_iff_mem.mp hends

/-- A split of a trace extended by one event. -/
theorem append_singleton_split {α : Type} {l t1 t2 : List α} {e f : α}
    (h : l ++ [e] = t1 ++ f :: t2) :
    (∃ t2', t2 = t2' ++ [e] ∧ l = t1 ++ f :: t2') ∨ (t1 = l ∧ f = e ∧ t2 = []) := by
  rcases t2.eq_nil_or_concat with rfl | ⟨t2', x, rfl⟩
  · have hlen : l.length = t1.length := by
      have := congrArg List.length h
      simp at this
      omega
    rcases List.append_inj h hlen with ⟨h1, h2⟩
    simp only [List.cons_eq_cons] at h2
    exact Or.inr ⟨h1.symm, h2.1.symm, rfl⟩
  · have h2 : l ++ [e] = (t1 ++ f :: t2') ++ [x] := by
      rw [h]
      simp
    have hlen : l.length = (t1 ++ f :: t2').length := by
      have hc := congrArg List.length h2
      simp only [List.length_append, List.length_cons, List.length_singleton] at hc ⊢
      omega
    rcases List.append_inj h2 hlen with ⟨h3, h4⟩
    simp only [List.cons_eq_cons] at h4
    refine Or.inl ⟨t2', ?_, h3⟩
    rw [List.concat_eq_append, h4.1]

/-- The invariant holds initially. -/
theorem countP_init_zero (ssl : List (List Nat)) (snl : List Nat) (p : Thread → Bool)
    (hp : ∀ r, p ⟨r, program ssl r⟩ = false) :
    (snl.map (fun r => (⟨r, program ssl r⟩ : Thread))).countP p = 0 := by
  rw [List.countP_map]
  apply List.countP_eq_zero.mpr
  intro x _
  rw [Function.comp_apply, hp x]
  simp

/-- The invariant holds initially. -/
theorem schedInv_init (ssl : List (List Nat)) (snl : List Nat)
    (hrf : ReachFacts ssl snl (bftRun ssl (bftMake snl))) (hsnl : snl.Nodup) :
    SchedInv ssl snl (bftRun ssl (bftMake snl)) (initConfig ssl snl) := by
  have hthreads : (initConfig ssl snl).threads = snl.map (fun r => ⟨r, program ssl r⟩) := rfl
  have hdecs0 : ∀ v, decsDone ssl (initConfig ssl snl) v = 0 := by
    intro v
    unfold decsDone
    rw [hthreads]
    apply countP_init_zero
    intro r
    apply decide_eq_false
    rintro ⟨h1, h2⟩
    exact h2 h1
  have hbegins0 : ∀ v, beginsDone (initConfig ssl snl) v = 0 := by
    intro v
    unfold beginsDone
    rw [hthreads]
    apply countP_init_zero
    intro r
    apply decide_eq_false
    rintro ⟨h1, h2⟩
    exact h2 (by simp [program])
  have hends0 : ∀ v, endsDone (initConfig ssl snl) v = 0 := by
    intro v
    unfold endsDone
    rw [hthreads]
    apply countP_init_zero
    intro r
    apply decide_eq_false
    rintro ⟨h1, h2⟩
    exact h2 (by simp [program])
  have hdecG0 : decGsDone (initConfig ssl snl) = 0 := by
    unfold decGsDone
    rw [hthreads]
    apply countP_init_zero
    intro r
    apply decide_eq_false
    intro h
    exact h (by simp [program])
  refine ⟨?_, ?_, ?_, ?_, ?_, ?_, ?_, ?_, ?_, ?_⟩
  · intro t ht
    rw [hthreads] at ht
    rcases List.mem_map.mp ht with ⟨r, _, rfl⟩
    exact List.suffix_refl _
  · intro v
    unfold threadCount
    rw [hthreads, List.countP_map]
    have hcc : ((fun t : Thread => decide (t.sid = v)) ∘
        (fun r => (⟨r, program ssl r⟩ : Thread))) = fun r => decide (r = v) := by
      funext r
      simp [Function.comp]
    rw [hcc]
    exact countP_eq_le_one_of_nodup hsnl v
  · intro t ht
    rw [hthreads] at ht
    rcases List.mem_map.mp ht with ⟨r, hr, rfl⟩
    exact hrf.roots r hr
  · intro v
    rw [hdecs0 v]
    omega
  · intro v
    rw [hdecs0 v]
    rfl
  · intro v
    constructor
    · intro hpos
      rcases (thread_mem_iff_threadCount _ v).mpr hpos with ⟨t, ht, rfl⟩
      rw [hthreads] at ht
      rcases List.mem_map.mp ht with ⟨r, hr, heq⟩
      cases heq
      exact Or.inl hr
    · intro h
      apply (thread_mem_iff_threadCount _ v).mp
      rcases h with hsnl2 | ⟨hvr, hpos, hdecs⟩
      · exact ⟨⟨v, program ssl v⟩, by
          rw [hthreads]
          exact List.mem_map.mpr ⟨v, hsnl2, rfl⟩, rfl⟩
      · exfalso
        rw [hdecs0 v] at hdecs
        omega
  · intro v
    have h1 : (initConfig ssl snl).trace = [] := rfl
    rw [h1, hbegins0 v]
    rfl
  · intro v
    have h1 : (initConfig ssl snl).trace = [] := rfl
    rw [h1, hends0 v]
    rfl
  · rw [hdecG0]
    rfl
  · intro u v _ _ _ t1 t2 heq
    have h1 : (initConfig ssl snl).trace = [] := rfl
    rw [h1] at heq
    exact absurd heq.symm (List.append_ne_nil_of_right_ne_nil _ (by simp))

theorem schedInv_step_begin (ssl : List (List Nat)) (snl reach : List Nat)
    (hrf : ReachFacts ssl snl reach) (c : SchedConfig) (i : Nat) (t : Thread)
    (rest : List Act) (hget : c.threads.get? i = some t)
    (ht : t.rest = Act.abegin :: rest) (hinv : SchedInv ssl snl reach c) :
    SchedInv ssl snl reach (applyAct ssl c i t Act.abegin rest) := by
  have htmem : t ∈ c.threads := List.get?_mem hget
  have hsuf_cons : (Act.abegin :: rest) <:+ program ssl t.sid := ht ▸ hinv.suffix t htmem
  have hrest_suf : rest <:+ program ssl t.sid :=
    (List.suffix_cons Act.abegin rest).trans hsuf_cons
  have ha_not_rest : Act.abegin ∉ rest :=
    head_not_mem_of_suffix hsuf_cons (program_nodup ssl t.sid)
  have hth2 : (applyAct ssl c i t Act.abegin rest).threads =
      c.threads.set i ⟨t.sid, rest⟩ := rfl
  have htr2 : (applyAct ssl c i t Act.abegin rest).trace =
      c.trace ++ [Ev.evBegin t.sid] := rfl
  have hrem2 : (applyAct ssl c i t Act.abegin rest).remaining = c.remaining := rfl
  have hcnt2 : (applyAct ssl c i t Act.abegin rest).counter = c.counter := rfl
  have htc : ∀ v, threadCount (applyAct ssl c i t Act.abegin rest) v = threadCount c v := by
    intro v
    unfold threadCount
    rw [hth2]
    exact countP_set_same_sid rest hget v
  have hdd : ∀ v, decsDone ssl (applyAct ssl c i t Act.abegin rest) v =
      decsDone ssl c v := by
    intro v
    unfold decsDone
    rw [hth2]
    apply countP_set_same ⟨t.sid, rest⟩ hget
    simp only [decide_eq_decide]
    rw [ht]
    simp
  have hdg : decGsDone (applyAct ssl c i t Act.abegin rest) = decGsDone c := by
    unfold decGsDone
    rw [hth2]
    apply countP_set_same ⟨t.sid, rest⟩ hget
    simp only [decide_eq_decide]
    rw [ht]
    simp
  have hed : ∀ v, endsDone (applyAct ssl c i t Act.abegin rest) v = endsDone c v := by
    intro v
    unfold endsDone
    rw [hth2]
    apply countP_set_same ⟨t.sid, rest⟩ hget
    simp only [decide_eq_decide]
    rw [ht]
    simp
  have hbd : ∀ v, beginsDone (applyAct ssl c i t Act.abegin rest) v =
      beginsDone c v + (if v = t.sid then 1 else 0) := by
    intro v
    unfold beginsDone
    rw [hth2]
    by_cases hv : v = t.sid
    · subst hv
      rw [if_pos rfl]
      apply countP_set_inc ⟨t.sid, rest⟩ hget
      · apply decide_eq_false
        rintro ⟨-, h2⟩
        apply h2
        rw [ht]
        exact List.mem_cons_self _ _
      · exact decide_eq_true ⟨rfl, ha_not_rest⟩
    · rw [if_neg hv]
      apply countP_set_same ⟨t.sid, rest⟩ hget
      have hf1 : decide (t.sid = v ∧ Act.abegin ∉ t.rest) = false :=
        decide_eq_false (fun h => hv h.1.symm)
      have hf2 : decide ((⟨t.sid, rest⟩ : Thread).sid = v ∧
          Act.abegin ∉ (⟨t.sid, rest⟩ : Thread).rest) = false :=
        decide_eq_false (fun h => hv h.1.symm)
      rw [hf1, hf2]
  refine ⟨?_, ?_, ?_, ?_, ?_, ?_, ?_, ?_, ?_, ?_⟩
  · intro t2 ht2
    rw [hth2] at ht2
    rcases List.mem_or_eq_of_mem_set ht2 with h | rfl
    · exact hinv.suffix t2 h
    · exact hrest_suf
  · intro v
    rw [htc v]
    exact hinv.uniq v
  · intro t2 ht2
    rw [hth2] at ht2
    rcases List.mem_or_eq_of_mem_set ht2 with h | rfl
    · exact hinv.inReach t2 h
    · exact hinv.inReach t htmem
  · intro v
    rw [hdd v]
    exact hinv.decsLe v
  · intro v
    rw [hrem2, hdd v]
    exact hinv.rem v
  · intro v
    rw [htc v, hdd v]
    exact hinv.started v
  · intro v
    rw [htr2, hbd v, List.count_append, hinv.beginsTr v]
    congr 1
    by_cases hv : v = t.sid
    · subst hv
      simp
    · have : (Ev.evBegin t.sid) ≠ (Ev.evBegin v) := by
        intro h
        cases h
        exact hv rfl
      simp [List.count_cons, this, hv]
  · intro v
    rw [htr2, hed v, List.count_append, hinv.endsTr v]
    simp
  · rw [hcnt2, hdg]
    exact hinv.cnt
  · intro u v hdep hur hvr t1 t2 heq
    rw [htr2] at heq
    rcases append_singleton_split heq with ⟨t2', -, htrace⟩ | ⟨ht1, hev, -⟩
    · exact hinv.order u v hdep hur hvr t1 t2' htrace
    · have hv : v = t.sid := by
        cases hev
        rfl
      rw [ht1]
      apply deps_ended_of_started ssl snl reach hrf c hinv v ⟨t, htmem, hv.symm⟩ ?_ u hdep hur
      intro hroot
      have h0 := hrf.rootsIndeg v hroot
      have hpos : 0 < indegR ssl reach v := by
        unfold indegR
        rw [List.length_pos]
        intro hnil
        have hmem2 : u ∈ (depsOf ssl v).filter (fun x => decide (x ∈ reach)) :=
          List.mem_filter.mpr ⟨hdep, by simpa using hur⟩
        rw [hnil] at hmem2
        cases hmem2
      omega

theorem schedInv_step_end (ssl : List (List Nat)) (snl reach : List Nat)
    (hrf : ReachFacts ssl snl reach) (c : SchedConfig) (i : Nat) (t : Thread)
    (rest : List Act) (hget : c.threads.get? i = some t)
    (ht : t.rest = Act.aend :: rest) (hinv : SchedInv ssl snl reach c) :
    SchedInv ssl snl reach (applyAct ssl c i t Act.aend rest) := by
  have htmem : t ∈ c.threads := List.get?_mem hget
  have hsuf_cons : (Act.aend :: rest) <:+ program ssl t.sid := ht ▸ hinv.suffix t htmem
  have hrest_suf : rest <:+ program ssl t.sid :=
    (List.suffix_cons Act.aend rest).trans hsuf_cons
  have ha_not_rest : Act.aend ∉ rest :=
    head_not_mem_of_suffix hsuf_cons (program_nodup ssl t.sid)
  have hth2 : (applyAct ssl c i t Act.aend rest).threads =
      c.threads.set i ⟨t.sid, rest⟩ := rfl
  have htr2 : (applyAct ssl c i t Act.aend rest).trace =
      c.trace ++ [Ev.evEnd t.sid] := rfl
  have hrem2 : (applyAct ssl c i t Act.aend rest).remaining = c.remaining := rfl
  have hcnt2 : (applyAct ssl c i t Act.aend rest).counter = c.counter := rfl
  have htc : ∀ v, threadCount (applyAct ssl c i t Act.aend rest) v = threadCount c v := by
    intro v
    unfold threadCount
    rw [hth2]
    exact countP_set_same_sid rest hget v
  have hdd : ∀ v, decsDone ssl (applyAct ssl c i t Act.aend rest) v =
      decsDone ssl c v := by
    intro v
    unfold decsDone
    rw [hth2]
    apply countP_set_same ⟨t.sid, rest⟩ hget
    simp only [decide_eq_decide]
    rw [ht]
    simp
  have hdg : decGsDone (applyAct ssl c i t Act.aend rest) = decGsDone c := by
    unfold decGsDone
    rw [hth2]
    apply countP_set_same ⟨t.sid, rest⟩ hget
    simp only [decide_eq_decide]
    rw [ht]
    simp
  have hbd : ∀ v, beginsDone (applyAct ssl c i t Act.aend rest) v = beginsDone c v := by
    intro v
    unfold beginsDone
    rw [hth2]
    apply countP_set_same ⟨t.sid, rest⟩ hget
    simp only [decide_eq_decide]
    rw [ht]
    simp
  have hed : ∀ v, endsDone (applyAct ssl c i t Act.aend rest) v =
      endsDone c v + (if v = t.sid then 1 else 0) := by
    intro v
    unfold endsDone
    rw [hth2]
    by_cases hv : v = t.sid
    · subst hv
      rw [if_pos rfl]
      apply countP_set_inc ⟨t.sid, rest⟩ hget
      · apply decide_eq_false
        rintro ⟨-, h2⟩
        apply h2
        rw [ht]
        exact List.mem_cons_self _ _
      · exact decide_eq_true ⟨rfl, ha_not_rest⟩
    · rw [if_neg hv]
      apply countP_set_same ⟨t.sid, rest⟩ hget
      have hf1 : decide (t.sid = v ∧ Act.aend ∉ t.rest) = false :=
        decide_eq_false (fun h => hv h.1.symm)
      have hf2 : decide ((⟨t.sid, rest⟩ : Thread).sid = v ∧
          Act.aend ∉ (⟨t.sid, rest⟩ : Thread).rest) = false :=
        decide_eq_false (fun h => hv h.1.symm)
      rw [hf1, hf2]
  refine ⟨?_, ?_, ?_, ?_, ?_, ?_, ?_, ?_, ?_, ?_⟩
  · intro t2 ht2
    rw [hth2] at ht2
    rcases List.mem_or_eq_of_mem_set ht2 with h | rfl
    · exact hinv.suffix t2 h
    · exact hrest_suf
  · intro v
    rw [htc v]
    exact hinv.uniq v
  · intro t2 ht2
    rw [hth2] at ht2
    rcases List.mem_or_eq_of_mem_set ht2 with h | rfl
    · exact hinv.inReach t2 h
    · exact hinv.inReach t htmem
  · intro v
    rw [hdd v]
    exact hinv.decsLe v
  · intro v
    rw [hrem2, hdd v]
    exact hinv.rem v
  · intro v
    rw [htc v, hdd v]
    exact hinv.started v
  · intro v
    rw [htr2, hbd v, List.count_append, hinv.beginsTr v]
    simp
  · intro v
    rw [htr2, hed v, List.count_append, hinv.endsTr v]
    congr 1
    by_cases hv : v = t.sid
    · subst hv
      simp
    · have hne : (Ev.evEnd t.sid) ≠ (Ev.evEnd v) := by
        intro h
        cases h
        exact hv rfl
      simp [List.count_cons, hne, hv]
  · rw [hcnt2, hdg]
    exact hinv.cnt
  · intro u v hdep hur hvr t1 t2 heq
    rw [htr2] at heq
    rcases append_singleton_split heq with ⟨t2', -, htrace⟩ | ⟨-, hev, -⟩
    · exact hinv.order u v hdep hur hvr t1 t2' htrace
    · cases hev

theorem schedInv_step_decG (ssl : List (List Nat)) (snl reach : List Nat)
    (hrf : ReachFacts ssl snl reach) (c : SchedConfig) (i : Nat) (t : Thread)
    (rest : List Act) (hget : c.threads.get? i = some t)
    (ht : t.rest = Act.adecG :: rest) (hinv : SchedInv ssl snl reach c) :
    SchedInv ssl snl reach (applyAct ssl c i t Act.adecG rest) := by
  have htmem : t ∈ c.threads := List.get?_mem hget
  have hsuf_cons : (Act.adecG :: rest) <:+ program ssl t.sid := ht ▸ hinv.suffix t htmem
  have hrest_suf : rest <:+ program ssl t.sid :=
    (List.suffix_cons Act.adecG rest).trans hsuf_cons
  have ha_not_rest : Act.adecG ∉ rest :=
    head_not_mem_of_suffix hsuf_cons (program_nodup ssl t.sid)
  have hth2 : (applyAct ssl c i t Act.adecG rest).threads =
      c.threads.set i ⟨t.sid, rest⟩ := rfl
  have htr2 : (applyAct ssl c i t Act.adecG rest).trace = c.trace := rfl
  have hrem2 : (applyAct ssl c i t Act.adecG rest).remaining = c.remaining := rfl
  have hcnt2 : (applyAct ssl c i t Act.adecG rest).counter = c.counter - 1 := rfl
  have htc : ∀ v, threadCount (applyAct ssl c i t Act.adecG rest) v = threadCount c v := by
    intro v
    unfold threadCount
    rw [hth2]
    exact countP_set_same_sid rest hget v
  have hdd : ∀ v, decsDone ssl (applyAct ssl c i t Act.adecG rest) v =
      decsDone ssl c v := by
    intro v
    unfold decsDone
    rw [hth2]
    apply countP_set_same ⟨t.sid, rest⟩ hget
    simp only [decide_eq_decide]
    rw [ht]
    simp
  have hbd : ∀ v, beginsDone (applyAct ssl c i t Act.adecG rest) v = beginsDone c v := by
    intro v
    unfold beginsDone
    rw [hth2]
    apply countP_set_same ⟨t.sid, rest⟩ hget
    simp only [decide_eq_decide]
    rw [ht]
    simp
  have hed : ∀ v, endsDone (applyAct ssl c i t Act.adecG rest) v = endsDone c v := by
    intro v
    unfold endsDone
    rw [hth2]
    apply countP_set_same ⟨t.sid, rest⟩ hget
    simp only [decide_eq_decide]
    rw [ht]
    simp
  have hdg : decGsDone (applyAct ssl c i t Act.adecG rest) = decGsDone c + 1 := by
    unfold decGsDone
    rw [hth2]
    apply countP_set_inc ⟨t.sid, rest⟩ hget
    · apply decide_eq_false
      intro h2
      apply h2
      rw [ht]
      exact List.mem_cons_self _ _
    · exact decide_eq_true ha_not_rest
  refine ⟨?_, ?_, ?_, ?_, ?_, ?_, ?_, ?_, ?_, ?_⟩
  · intro t2 ht2
    rw [hth2] at ht2
    rcases List.mem_or_eq_of_mem_set ht2 with h | rfl
    · exact hinv.suffix t2 h
    · exact hrest_suf
  · intro v
    rw [htc v]
    exact hinv.uniq v
  · intro t2 ht2
    rw [hth2] at ht2
    rcases List.mem_or_eq_of_mem_set ht2 with h | rfl
    · exact hinv.inReach t2 h
    · exact hinv.inReach t htmem
  · intro v
    rw [hdd v]
    exact hinv.decsLe v
  · intro v
    rw [hrem2, hdd v]
    exact hinv.rem v
  · intro v
    rw [htc v, hdd v]
    exact hinv.started v
  · intro v
    rw [htr2, hbd v]
    exact hinv.beginsTr v
  · intro v
    rw [htr2, hed v]
    exact hinv.endsTr v
  · rw [hcnt2, hdg]
    have := hinv.cnt
    omega
  · intro u v hdep hur hvr t1 t2 heq
    rw [htr2] at heq
    exact hinv.order u v hdep hur hvr t1 t2 heq

theorem schedInv_step_decDep (ssl : List (List Nat)) (snl reach : List Nat)
    (hrf : ReachFacts ssl snl reach) (c : SchedConfig) (i : Nat) (t : Thread)
    (d : Nat) (rest : List Act) (hget : c.threads.get? i = some t)
    (ht : t.rest = Act.adecDep d :: rest) (hinv : SchedInv ssl snl reach c) :
    SchedInv ssl snl reach (applyAct ssl c i t (Act.adecDep d) rest) := by
  have htmem : t ∈ c.threads := List.get?_mem hget
  have hsuf_cons : (Act.adecDep d :: rest) <:+ program ssl t.sid :=
    ht ▸ hinv.suffix t htmem
  have hrest_suf : rest <:+ program ssl t.sid :=
    (List.suffix_cons (Act.adecDep d) rest).trans hsuf_cons
  have ha_mem : Act.adecDep d ∈ program ssl t.sid :=
    hsuf_cons.subset (List.mem_cons_self _ _)
  have ha_not_rest : Act.adecDep d ∉ rest :=
    head_not_mem_of_suffix hsuf_cons (program_nodup ssl t.sid)
  have hedge : Edge ssl t.sid d := (adecDep_mem_program_iff ssl t.sid d).mp ha_mem
  have hdd2 := dep_of_edge ssl t.sid d hedge
  have hsid_reach : t.sid ∈ reach := hinv.inReach t htmem
  have hd_reach : d ∈ reach := hrf.closed t.sid hsid_reach d hedge
  have hsid_in_filter : t.sid ∈ (depsOf ssl d).filter (fun u => decide (u ∈ reach)) :=
    List.mem_filter.mpr ⟨hdd2.1, by simpa using hsid_reach⟩
  have hindeg_pos : 0 < indegR ssl reach d := by
    unfold indegR
    rw [List.length_pos]
    intro hnil
    rw [hnil] at hsid_in_filter
    cases hsid_in_filter
  have hd_noroot : d ∉ snl := by
    intro hroot
    have h0 := hrf.rootsIndeg d hroot
    omega
  have hdecs_lt : decsDone ssl c d < indegR ssl reach d := by
    have hKnd : (((depsOf ssl d).filter (fun u => decide (u ∈ reach))).erase t.sid).Nodup :=
      ((hrf.depsNodup d).filter _).erase _
    have hle := countP_le_of_keys Thread.sid
      (((depsOf ssl d).filter (fun u => decide (u ∈ reach))).erase t.sid)
      (c.threads.filter (fun th =>
        decide (Act.adecDep d ∈ program ssl th.sid ∧ Act.adecDep d ∉ th.rest)))
      hKnd
      (by
        intro th hth
        rcases List.mem_filter.mp hth with ⟨hthm, hthp⟩
        simp only [decide_eq_true_eq] at hthp
        have hedge2 : Edge ssl th.sid d := (adecDep_mem_program_iff _ _ _).mp hthp.1
        have hdep2 := (dep_of_edge _ _ _ hedge2).1
        have hreach2 := hinv.inReach th hthm
        have hne : th.sid ≠ t.sid := by
          intro heqsid
          have hPf : Act.adecDep d ∈ t.rest := by
            rw [ht]
            exact List.mem_cons_self _ _
          have hthne : th ≠ t := by
            intro hteq
            rw [hteq] at hthp
            exact hthp.2 hPf
          have h2cnt := two_le_countP (p := fun x : Thread => decide (x.sid = t.sid))
            hthm htmem hthne (by simp [heqsid]) (by simp)
          have hu := hinv.uniq t.sid
          unfold threadCount at hu
          omega
        apply (List.Nodup.mem_erase_iff ((hrf.depsNodup d).filter _)).mpr
        exact ⟨hne, List.mem_filter.mpr ⟨hdep2, by simpa using hreach2⟩⟩)
      (by
        intro w
        calc ((c.threads.filter (fun th =>
              decide (Act.adecDep d ∈ program ssl th.sid ∧ Act.adecDep d ∉ th.rest))).filter
              (fun th => decide (th.sid = w))).length
            ≤ (c.threads.filter (fun th => decide (th.sid = w))).length := by
              apply List.Sublist.length_le
              exact List.Sublist.filter _ (List.filter_sublist _)
          _ = c.threads.countP (fun th => decide (th.sid = w)) :=
              (List.countP_eq_length_filter _ _).symm
          _ ≤ 1 := hinv.uniq w)
    have hlenK := List.length_erase_of_mem hsid_in_filter
    have hLlen : decsDone ssl c d = (c.threads.filter (fun th =>
        decide (Act.adecDep d ∈ program ssl th.sid ∧ Act.adecDep d ∉ th.rest))).length :=
      List.countP_eq_length_filter _ _
    have hKindeg : ((depsOf ssl d).filter (fun u => decide (u ∈ reach))).length =
        indegR ssl reach d := rfl
    omega
  have hrem_d := hinv.rem d
  have hcond_iff : (c.remaining d - 1 = 0) ↔
      (decsDone ssl c d + 1 = indegR ssl reach d) := by
    rw [hrem_d]
    omega
  have htc_d0 : threadCount c d = 0 := by
    by_contra hpos
    have hp : 0 < threadCount c d := Nat.pos_of_ne_zero hpos
    rcases (hinv.started d).mp hp with hroot | ⟨-, -, hdecseq⟩
    · exact hd_noroot hroot
    · omega
  have hth2 : (applyAct ssl c i t (Act.adecDep d) rest).threads =
      (c.threads.set i ⟨t.sid, rest⟩) ++
        (if c.remaining d - 1 = 0 then [(⟨d, program ssl d⟩ : Thread)] else []) := rfl
  have htr2 : (applyAct ssl c i t (Act.adecDep d) rest).trace = c.trace := rfl
  have hcnt2 : (applyAct ssl c i t (Act.adecDep d) rest).counter = c.counter := rfl
  have hrem2 : ∀ v, (applyAct ssl c i t (Act.adecDep d) rest).remaining v =
      if v = d then c.remaining d - 1 else c.remaining v := fun v => rfl
  have hspawnP : ∀ p : Thread → Bool, p ⟨d, program ssl d⟩ = false →
      (if c.remaining d - 1 = 0 then [(⟨d, program ssl d⟩ : Thread)] else []).countP p = 0 := by
    intro p hp
    by_cases hcond : c.remaining d - 1 = 0
    · simp [hcond, List.countP_cons, hp]
    · simp [hcond]
  have htc_ne : ∀ v, v ≠ d →
      threadCount (applyAct ssl c i t (Act.adecDep d) rest) v = threadCount c v := by
    intro v hv
    unfold threadCount
    rw [hth2, List.countP_append, countP_set_same_sid rest hget v,
      hspawnP _ (decide_eq_false (fun h => hv h.symm))]
    omega
  have htc_d : threadCount (applyAct ssl c i t (Act.adecDep d) rest) d =
      threadCount c d + (if c.remaining d - 1 = 0 then 1 else 0) := by
    unfold threadCount
    rw [hth2, List.countP_append, countP_set_same_sid rest hget d]
    congr 1
    by_cases hcond : c.remaining d - 1 = 0
    · simp [hcond, List.countP_cons]
    · simp [hcond]
  have hdd_d : decsDone ssl (applyAct ssl c i t (Act.adecDep d) rest) d =
      decsDone ssl c d + 1 := by
    unfold decsDone
    rw [hth2, List.countP_append,
      countP_set_inc ⟨t.sid, rest⟩ hget
        (by
          apply decide_eq_false
          rintro ⟨-, h2⟩
          apply h2
          rw [ht]
          exact List.mem_cons_self _ _)
        (decide_eq_true ⟨ha_mem, ha_not_rest⟩),
      hspawnP _ (by
        apply decide_eq_false
        rintro ⟨h1, h2⟩
        exact h2 h1)]
  have hdd_ne : ∀ v, v ≠ d →
      decsDone ssl (applyAct ssl c i t (Act.adecDep d) rest) v = decsDone ssl c v := by
    intro v hv
    unfold decsDone
    rw [hth2, List.countP_append,
      countP_set_same ⟨t.sid, rest⟩ hget (by
        simp only [decide_eq_decide]
        rw [ht]
        simp [hv]),
      hspawnP _ (by
        apply decide_eq_false
        rintro ⟨h1, h2⟩
        exact h2 h1)]
    omega
  have hbd : ∀ v, beginsDone (applyAct ssl c i t (Act.adecDep d) rest) v =
      beginsDone c v := by
    intro v
    unfold beginsDone
    rw [hth2, List.countP_append,
      countP_set_same ⟨t.sid, rest⟩ hget (by
        simp only [decide_eq_decide]
        rw [ht]
        simp),
      hspawnP _ (by
        apply decide_eq_false
        rintro ⟨-, h2⟩
        exact h2 (by simp [program]))]
    omega
  have hed : ∀ v, endsDone (applyAct ssl c i t (Act.adecDep d) rest) v =
      endsDone c v := by
    intro v
    unfold endsDone
    rw [hth2, List.countP_append,
      countP_set_same ⟨t.sid, rest⟩ hget (by
        simp only [decide_eq_decide]
        rw [ht]
        simp),
      hspawnP _ (by
        apply decide_eq_false
        rintro ⟨-, h2⟩
        exact h2 (by simp [program]))]
    omega
  have hdg : decGsDone (applyAct ssl c i t (Act.adecDep d) rest) = decGsDone c := by
    unfold decGsDone
    rw [hth2, List.countP_append,
      countP_set_same ⟨t.sid, rest⟩ hget (by
        simp only [decide_eq_decide]
        rw [ht]
        simp),
      hspawnP _ (by
        apply decide_eq_false
        intro h2
        exact h2 (by simp [program]))]
    omega
  refine ⟨?_, ?_, ?_, ?_, ?_, ?_, ?_, ?_, ?_, ?_⟩
  · intro t2 ht2
    rw [hth2] at ht2
    rcases List.mem_append.mp ht2 with hset | hsp
    · rcases List.mem_or_eq_of_mem_set hset with h | rfl
      · exact hinv.suffix t2 h
      · exact hrest_suf
    · by_cases hcond : c.remaining d - 1 = 0
      · rw [if_pos hcond, List.mem_singleton] at hsp
        subst hsp
        exact List.suffix_refl _
      · rw [if_neg hcond] at hsp
        cases hsp
  · intro v
    by_cases hv : v = d
    · subst hv
      rw [htc_d, htc_d0]
      by_cases hcond : c.remaining v - 1 = 0 <;> simp [hcond]
    · rw [htc_ne v hv]
      exact hinv.uniq v
  · intro t2 ht2
    rw [hth2] at ht2
    rcases List.mem_append.mp ht2 with hset | hsp
    · rcases List.mem_or_eq_of_mem_set hset with h | rfl
      · exact hinv.inReach t2 h
      · exact hinv.inReach t htmem
    · by_cases hcond : c.remaining d - 1 = 0
      · rw [if_pos hcond, List.mem_singleton] at hsp
        subst hsp
        exact hd_reach
      · rw [if_neg hcond] at hsp
        cases hsp
  · intro v
    by_cases hv : v = d
    · subst hv
      rw [hdd_d]
      omega
    · rw [hdd_ne v hv]
      exact hinv.decsLe v
  · intro v
    by_cases hv : v = d
    · subst hv
      rw [hrem2, if_pos rfl, hdd_d, hrem_d]
      omega
    · rw [hrem2, if_neg hv, hdd_ne v hv]
      exact hinv.rem v
  · intro v
    by_cases hv : v = d
    · subst hv
      rw [htc_d, htc_d0, hdd_d]
      by_cases hcond : c.remaining v - 1 = 0
      · rw [if_pos hcond]
        apply iff_of_true (by omega)
        exact Or.inr ⟨hd_reach, hindeg_pos, hcond_iff.mp hcond⟩
      · rw [if_neg hcond]
        apply iff_of_false (by omega)
        rintro (hroot | ⟨-, -, heq⟩)
        · exact hd_noroot hroot
        · exact hcond (hcond_iff.mpr heq)
    · rw [htc_ne v hv, hdd_ne v hv]
      exact hinv.started v
  · intro v
    rw [htr2, hbd v]
    exact hinv.beginsTr v
  · intro v
    rw [htr2, hed v]
    exact hinv.endsTr v
  · rw [hcnt2, hdg]
    exact hinv.cnt
  · intro u v hdep hur hvr t1 t2 heq
    rw [htr2] at heq
    exact hinv.order u v hdep hur hvr t1 t2 heq

/-- Any step preserves the scheduler invariant. -/
theorem schedInv_step (ssl : List (List Nat)) (snl reach : List Nat)
    (hrf : ReachFacts ssl snl reach) (c c2 : SchedConfig)
    (hstep : SchedStep ssl c c2) (hinv : SchedInv ssl snl reach c) :
    SchedInv ssl snl reach c2 := by
  cases hstep with
  | mk i t a rest hget ht =>
    cases a with
    | abegin => exact schedInv_step_begin ssl snl reach hrf c i t rest hget ht hinv
    | aend => exact schedInv_step_end ssl snl reach hrf c i t rest hget ht hinv
    | adecG => exact schedInv_step_decG ssl snl reach hrf c i t rest hget ht hinv
    | adecDep d => exact schedInv_step_decDep ssl snl reach hrf c i t d rest hget ht hinv

/-- The invariant holds in every reachable configuration. -/
theorem schedInv_reach (ssl : List (List Nat)) (snl : List Nat)
    (hrf : ReachFacts ssl snl (bftRun ssl (bftMake snl))) (hsnl : snl.Nodup)
    (c : SchedConfig) (hc : SchedReach ssl snl c) :
    SchedInv ssl snl (bftRun ssl (bftMake snl)) c := by
  induction hc with
  | refl => exact schedInv_init ssl snl hrf hsnl
  | tail hr hstep ih => exact schedInv_step ssl snl _ hrf _ _ hstep ih

theorem countP_erase_of_mem {β : Type} [DecidableEq β] {p : β → Bool} {l : List β} {a : β}
    (ha : a ∈ l) (hpa : p a = true) :
    l.countP p = (l.erase a).countP p + 1 := by
  induction l with
  | nil => cases ha
  | cons x xs ih =>
    by_cases hx : x = a
    · subst hx
      rw [List.erase_cons_head, List.countP_cons, hpa]
      simp
    · rw [List.erase_cons_tail (by simp [hx]), List.countP_cons, List.countP_cons]
      have hax : a ∈ xs := by
        rcases List.mem_cons.mp ha with h | h
        · exact absurd h.symm hx
        · exact h
      rw [ih hax]
      omega

theorem countP_ge_of_keys {β : Type} [DecidableEq β] (key : β → Nat) (p : β → Bool) :
    ∀ (K : List Nat) (L : List β), K.Nodup →
      (∀ w ∈ K, ∃ t ∈ L, key t = w ∧ p t = true) →
      K.length ≤ L.countP p := by
  intro K
  induction K with
  | nil => intro L _ _; simp
  | cons w K ih =>
    intro L hK hcov
    rcases hcov w (List.mem_cons_self _ _) with ⟨t0, ht0L, ht0k, ht0p⟩
    have hrec : K.length ≤ (L.erase t0).countP p := by
      apply ih _ (List.nodup_cons.mp hK).2
      intro w2 hw2
      rcases hcov w2 (List.mem_cons_of_mem _ hw2) with ⟨t, htL, htk, htp⟩
      have hne : t ≠ t0 := by
        intro heq
        rw [heq, ht0k] at htk
        exact (List.nodup_cons.mp hK).1 (htk ▸ hw2)
      exact ⟨t, (List.mem_erase_of_ne hne).mpr htL, htk, htp⟩
    rw [countP_erase_of_mem ht0L ht0p]
    simp only [List.length_cons]
    omega

/-- C2.  Under the scheduler's documented preconditions — an acyclic DAG
(witnessed by a topological rank), distinct and pairwise-independent start
systems (enforced by the library at compile time), duplicate-free dependency
lists — and the reachable subgraph being dependency-closed: in every reachable
configuration of an `execute_systems_from` run, for every pair `(u, v)` with
`u` a dependency of the reachable system `v`, the body of `v` never begins
before the body of `u` has returned: every `evBegin v` in the trace is
preceded by `evEnd u`.  A task decrements its dependents' counters only after
finishing the inner executor, and a dependent is posted only when its counter
reaches zero. -/
theorem C2_dependency_happens_before (ssl : List (List Nat)) (snl : List Nat)
    (rank : Nat → Nat) (hrank : ∀ u v, Edge ssl u v → rank u < rank v)
    (hsnl : snl.Nodup)
    (hindep : ∀ a ∈ snl, ∀ b ∈ snl, Relation.TransGen (Edge ssl) a b → False)
    (hdeps : ∀ l ∈ ssl, l.Nodup)
    (hclosed : ∀ w ∈ bftRun ssl (bftMake snl), ∀ x ∈ depsOf ssl w,
      x ∈ bftRun ssl (bftMake snl))
    (c : SchedConfig) (hc : SchedReach ssl snl c)
    (u v : Nat) (hdep : u ∈ depsOf ssl v) (hv : v ∈ bftRun ssl (bftMake snl)) :
    ∀ t1 t2, c.trace = t1 ++ Ev.evBegin v :: t2 → Ev.evEnd u ∈ t1 := by
  have hrf := reachFacts_of ssl rank hrank snl hsnl hindep hdeps
  have hinv := schedInv_reach ssl snl hrf hsnl c hc
  exact hinv.order u v hdep (hclosed v hv u hdep) hv

/-- C3.  Under the scheduler's documented preconditions: the outer counter
blocker is initialized with `chain_size`, which is the number of systems
reachable from the start systems along forward dependency edges, each counted
exactly once by the compile-time breadth-first traversal; in every reachable
configuration a zero counter means every reachable system's body has ended,
and when all posted work has run, the counter is zero and every reachable
system has ended exactly once (each decremented the blocker exactly once). -/
theorem C3_outer_scheduler_latch (ssl : List (List Nat)) (snl : List Nat)
    (rank : Nat → Nat) (hrank : ∀ u v, Edge ssl u v → rank u < rank v)
    (hsnl : snl.Nodup)
    (hindep : ∀ a ∈ snl, ∀ b ∈ snl, Relation.TransGen (Edge ssl) a b → False)
    (hdeps : ∀ l ∈ ssl, l.Nodup) :
    (initConfig ssl snl).counter = chainSize ssl snl ∧
    (bftRun ssl (bftMake snl)).Nodup ∧
    (∀ v, v ∈ bftRun ssl (bftMake snl) ↔ ∃ r ∈ snl, ReachesSys ssl r v) ∧
    (∀ c, SchedReach ssl snl c →
      (c.counter = 0 → ∀ v ∈ bftRun ssl (bftMake snl), Ev.evEnd v ∈ c.trace) ∧
      (Terminal c → c.counter = 0 ∧
        ∀ v, (v ∈ bftRun ssl (bftMake snl) ↔ c.trace.count (Ev.evEnd v) = 1))) := by
  have hrf := reachFacts_of ssl rank hrank snl hsnl hindep hdeps
  obtain ⟨hnd, hmem⟩ := bftRun_reachable ssl rank hrank snl hsnl hindep
  have hchain : chainSize ssl snl = (bftRun ssl (bftMake snl)).length := rfl
  refine ⟨rfl, hnd, hmem, ?_⟩
  intro c hc
  have hinv := schedInv_reach ssl snl hrf hsnl c hc
  have huniq_filter : ∀ w, ((c.threads.filter (fun th => decide (Act.adecG ∉ th.rest))).filter
      (fun th => decide (th.sid = w))).length ≤ 1 := by
    intro w
    calc ((c.threads.filter (fun th => decide (Act.adecG ∉ th.rest))).filter
          (fun th => decide (th.sid = w))).length
        ≤ (c.threads.filter (fun th => decide (th.sid = w))).length := by
          apply List.Sublist.length_le
          exact List.Sublist.filter _ (List.filter_sublist _)
      _ = c.threads.countP (fun th => decide (th.sid = w)) :=
          (List.countP_eq_length_filter _ _).symm
      _ ≤ 1 := hinv.uniq w
  constructor
  · -- counter = 0 → every reachable system has ended
    intro hzero v hvr
    have hcnt := hinv.cnt
    have hdgle : decGsDone c ≤ (bftRun ssl (bftMake snl)).length := by
      have := countP_le_of_keys Thread.sid (bftRun ssl (bftMake snl))
        (c.threads.filter (fun th => decide (Act.adecG ∉ th.rest))) hnd
        (fun th hth => hinv.inReach th (List.mem_filter.mp hth).1)
        huniq_filter
      unfold decGsDone
      rw [List.countP_eq_length_filter]
      exact this
    have hdgeq : decGsDone c = (bftRun ssl (bftMake snl)).length := by
      rw [hchain] at hcnt
      omega
    have hcov := keys_covered Thread.sid (bftRun ssl (bftMake snl))
      (c.threads.filter (fun th => decide (Act.adecG ∉ th.rest))) hnd
      (fun th hth => hinv.inReach th (List.mem_filter.mp hth).1)
      huniq_filter
      (by
        unfold decGsDone at hdgeq
        rw [List.countP_eq_length_filter] at hdgeq
        omega)
      v hvr
    rcases hcov with ⟨t, htf, htsid⟩
    rcases List.mem_filter.mp htf with ⟨htmem, htp⟩
    simp only [decide_eq_true_eq] at htp
    have haend : Act.aend ∉ t.rest :=
      aend_done_of_decG_done ssl t.sid t.rest (hinv.suffix t htmem) htp
    have hends : 0 < endsDone c v := by
      unfold endsDone
      rw [List.countP_pos]
      exact ⟨t, htmem, by simp [htsid, haend]⟩
    rw [← hinv.endsTr v] at hends
    exact List.count_pos_iff_mem.mp hends
  · -- terminal configurations
    intro hterm
    -- every reachable system has a (finished) thread
    have hstart : ∀ v, v ∈ bftRun ssl (bftMake snl) → ∃ t ∈ c.threads, t.sid = v := by
      have H : ∀ n, ∀ v, rank v = n → v ∈ bftRun ssl (bftMake snl) →
          ∃ t ∈ c.threads, t.sid = v := by
        intro n
        induction n using Nat.strong_induction_on with
        | _ n ih =>
          intro v hrankv hvreach
          by_cases hroot : v ∈ snl
          · exact (thread_mem_iff_threadCount c v).mpr
              ((hinv.started v).mpr (Or.inl hroot))
          · have hvlen : v < ssl.length := by
              rcases (hmem v).mp hvreach with ⟨r, hr, hpath⟩
              rcases Relation.ReflTransGen.cases_tail hpath with heq | ⟨m, -, hmv⟩
              · exact absurd (heq ▸ hr) hroot
              · exact (dep_of_edge ssl m v hmv).2
            have hindeg_pos := hrf.nonRootIndeg v hvreach hroot
            have hgecard := countP_ge_of_keys Thread.sid
              (fun t => decide (Act.adecDep v ∈ program ssl t.sid ∧ Act.adecDep v ∉ t.rest))
              ((depsOf ssl v).filter (fun u => decide (u ∈ bftRun ssl (bftMake snl))))
              c.threads ((hrf.depsNodup v).filter _)
              (by
                intro w hw
                rcases List.mem_filter.mp hw with ⟨hwdep, hwr⟩
                simp only [decide_eq_true_eq] at hwr
                have hedge : Edge ssl w v := edge_of_dep ssl w v hwdep hvlen
                have hwrank : rank w < n := hrankv ▸ hrank w v hedge
                rcases ih (rank w) hwrank w rfl hwr with ⟨tw, htwm, htwsid⟩
                refine ⟨tw, htwm, htwsid, ?_⟩
                rw [decide_eq_true_eq]
                constructor
                · rw [htwsid]
                  exact (adecDep_mem_program_iff ssl w v).mpr hedge
                · rw [hterm tw htwm]
                  simp)
            have hle := hinv.decsLe v
            have heq : decsDone ssl c v = indegR ssl (bftRun ssl (bftMake snl)) v := by
              unfold decsDone indegR at *
              omega
            exact (thread_mem_iff_threadCount c v).mpr
              ((hinv.started v).mpr (Or.inr ⟨hvreach, hindeg_pos, heq⟩))
      intro v hv
      exact H (rank v) v rfl hv
    have hdg_full : decGsDone c = (bftRun ssl (bftMake snl)).length := by
      have hge := countP_ge_of_keys Thread.sid (fun th => decide (Act.adecG ∉ th.rest))
        (bftRun ssl (bftMake snl)) c.threads hnd
        (by
          intro w hw
          rcases hstart w hw with ⟨t, htm, htsid⟩
          refine ⟨t, htm, htsid, ?_⟩
          rw [decide_eq_true_eq, hterm t htm]
          simp)
      have hle := countP_le_of_keys Thread.sid (bftRun ssl (bftMake snl))
        (c.threads.filter (fun th => decide (Act.adecG ∉ th.rest))) hnd
        (fun th hth => hinv.inReach th (List.mem_filter.mp hth).1)
        huniq_filter
      unfold decGsDone
      rw [List.countP_eq_length_filter]
      unfold decGsDone at hge
      rw [List.countP_eq_length_filter] at hge
      omega
    constructor
    · have hcnt := hinv.cnt
      rw [hchain] at hcnt
      omega
    · intro v
      rw [hinv.endsTr v]
      constructor
      · intro hvr
        rcases hstart v hvr with ⟨t, htm, htsid⟩
        have h1 : 0 < endsDone c v := by
          unfold endsDone
          rw [List.countP_pos]
          refine ⟨t, htm, ?_⟩
          rw [decide_eq_true_eq, hterm t htm]
          exact ⟨htsid, by simp⟩
        have h2 : endsDone c v ≤ threadCount c v := by
          unfold endsDone threadCount
          apply List.countP_mono_left
          intro th _ hp
          rw [decide_eq_true_eq] at hp
          rw [decide_eq_true_eq]
          exact hp.1
        have h3 := hinv.uniq v
        omega
      · intro hone
        by_contra hnr
        have hz : endsDone c v = 0 := by
          unfold endsDone
          apply List.countP_eq_zero.mpr
          intro th hth
          rw [decide_eq_true_eq]
          rintro ⟨hsid, -⟩
          exact hnr (hsid ▸ hinv.inReach th hth)
        omega

/-! #### A concrete two-system chain for the scheduler theorems -/

/-- Signature list of a two-system chain: system 0 has no dependencies and
system 1 depends on system 0. -/
def c2ssl : List (List Nat) := [[], [0]]

/-- Start node list: execution starts from system 0 alone. -/
def c2snl : List Nat := [0]

theorem c2_stepForward1 : stepForward c2ssl (bftMake c2snl) = ⟨[1], [1]⟩ := rfl

theorem c2_stepForward2 : stepForward c2ssl ⟨[1], [1]⟩ = ⟨[], [1]⟩ := rfl

theorem c2_bftRun_eval : bftRun c2ssl (bftMake c2snl) = [1, 0] := by
  rw [bftRun, dif_neg (by decide : ¬ (bftMake c2snl).queue = [])]
  rw [c2_stepForward1]
  rw [bftRun, dif_neg (by decide : ¬ (BftCtx.mk [1] [1]).queue = [])]
  rw [c2_stepForward2]
  rw [bftRun, dif_pos (rfl : (BftCtx.mk [] [1]).queue = [])]
  rfl

theorem c2_edge_iff (u v : Nat) : Edge c2ssl u v ↔ u = 0 ∧ v = 1 := by
  constructor
  · intro h
    rcases List.mem_filter.mp h with ⟨hv, hu⟩
    rw [decide_eq_true_eq] at hu
    have hv2 : v < 2 := List.mem_range.mp hv
    interval_cases v
    · exact absurd hu (List.not_mem_nil u)
    · have hu0 : u ∈ [0] := hu
      rcases List.mem_singleton.mp hu0 with rfl
      exact ⟨rfl, rfl⟩
  · rintro ⟨rfl, rfl⟩
    show 1 ∈ dependents c2ssl 0
    decide

theorem c2_rank_ok : ∀ u v : Nat, Edge c2ssl u v → u < v := by
  intro u v h
  rcases (c2_edge_iff u v).mp h with ⟨rfl, rfl⟩
  decide

theorem c2_snl_nodup : c2snl.Nodup := by decide

theorem c2_indep_ok :
    ∀ a ∈ c2snl, ∀ b ∈ c2snl, Relation.TransGen (Edge c2ssl) a b → False := by
  intro a ha b hb htg
  have ha0 : a = 0 := List.mem_singleton.mp ha
  have hb0 : b = 0 := List.mem_singleton.mp hb
  subst ha0
  subst hb0
  cases htg with
  | single h => exact absurd ((c2_edge_iff _ _).mp h).2 (by decide)
  | tail _ h => exact absurd ((c2_edge_iff _ _).mp h).2 (by decide)

theorem c2_deps_nodup : ∀ l ∈ c2ssl, l.Nodup := by
  intro l hl
  have hl2 : l ∈ [[], [0]] := hl
  rcases List.mem_cons.mp hl2 with rfl | h2
  · exact List.nodup_nil
  · rcases List.mem_singleton.mp h2 with rfl
    exact List.nodup_singleton 0

theorem c2_closed_ok : ∀ w ∈ bftRun c2ssl (bftMake c2snl), ∀ x ∈ depsOf c2ssl w,
    x ∈ bftRun c2ssl (bftMake c2snl) := by
  intro w hw x hx
  rw [c2_bftRun_eval] at hw ⊢
  rcases List.mem_cons.mp hw with rfl | hw2
  · have hx0 : x ∈ [0] := hx
    rcases List.mem_singleton.mp hx0 with rfl
    decide
  · rcases List.mem_singleton.mp hw2 with rfl
    exact absurd (show x ∈ ([] : List Nat) from hx) (List.not_mem_nil x)

/-! A five-step execution of the chain: the root's task begins, ends,
decrements the global counter, decrements system 1's dependency counter
(posting its task), and the posted task begins. -/

def c2c0 : SchedConfig := initConfig c2ssl c2snl

def c2c1 : SchedConfig :=
  applyAct c2ssl c2c0 0 ⟨0, program c2ssl 0⟩ Act.abegin
    [Act.aend, Act.adecG, Act.adecDep 1]

def c2c2 : SchedConfig :=
  applyAct c2ssl c2c1 0 ⟨0, [Act.aend, Act.adecG, Act.adecDep 1]⟩ Act.aend
    [Act.adecG, Act.adecDep 1]

def c2c3 : SchedConfig :=
  applyAct c2ssl c2c2 0 ⟨0, [Act.adecG, Act.adecDep 1]⟩ Act.adecG [Act.adecDep 1]

def c2c4 : SchedConfig :=
  applyAct c2ssl c2c3 0 ⟨0, [Act.adecDep 1]⟩ (Act.adecDep 1) []

def c2c5 : SchedConfig :=
  applyAct c2ssl c2c4 1 ⟨1, program c2ssl 1⟩ Act.abegin [Act.aend, Act.adecG]

theorem c2_step01 : SchedStep c2ssl c2c0 c2c1 :=
  SchedStep.mk c2c0 0 ⟨0, program c2ssl 0⟩ Act.abegin
    [Act.aend, Act.adecG, Act.adecDep 1] rfl rfl

theorem c2_step12 : SchedStep c2ssl c2c1 c2c2 :=
  SchedStep.mk c2c1 0 ⟨0, [Act.aend, Act.adecG, Act.adecDep 1]⟩ Act.aend
    [Act.adecG, Act.adecDep 1] rfl rfl

theorem c2_step23 : SchedStep c2ssl c2c2 c2c3 :=
  SchedStep.mk c2c2 0 ⟨0, [Act.adecG, Act.adecDep 1]⟩ Act.adecG
    [Act.adecDep 1] rfl rfl

theorem c2_step34 : SchedStep c2ssl c2c3 c2c4 :=
  SchedStep.mk c2c3 0 ⟨0, [Act.adecDep 1]⟩ (Act.adecDep 1) [] rfl rfl

theorem c2_rem1 : c2c3.remaining 1 = 1 := by
  show indegR c2ssl (bftRun c2ssl (bftMake c2snl)) 1 = 1
  simp only [indegR, c2_bftRun_eval]
  rfl

theorem c2c4_get : c2c4.threads.get? 1 = some ⟨1, program c2ssl 1⟩ := by
  show ((c2c3.threads.set 0 (⟨0, []⟩ : Thread)) ++
      (if c2c3.remaining 1 - 1 = 0 then [(⟨1, program c2ssl 1⟩ : Thread)]
        else ([] : List Thread))).get? 1 =
    some ⟨1, program c2ssl 1⟩
  rw [if_pos (by rw [c2_rem1] : c2c3.remaining 1 - 1 = 0)]
  rfl

theorem c2_step45 : SchedStep c2ssl c2c4 c2c5 :=
  SchedStep.mk c2c4 1 ⟨1, program c2ssl 1⟩ Act.abegin [Act.aend, Act.adecG]
    c2c4_get rfl

theorem c2c5_reach : SchedReach c2ssl c2snl c2c5 :=
  Relation.ReflTransGen.tail (Relation.ReflTransGen.tail (Relation.ReflTransGen.tail
    (Relation.ReflTransGen.tail (Relation.ReflTransGen.tail Relation.ReflTransGen.refl
      c2_step01) c2_step12) c2_step23) c2_step34) c2_step45

theorem c2c5_trace : c2c5.trace = [Ev.evBegin 0, Ev.evEnd 0] ++ Ev.evBegin 1 :: [] := rfl

/-- Witness for C2: in the concrete five-step run of the two-system chain, the
begin event of system 1 is preceded by the end event of its dependency 0. -/
theorem C2_witness : Ev.evEnd 0 ∈ [Ev.evBegin 0, Ev.evEnd 0] :=
  C2_dependency_happens_before c2ssl c2snl (fun n => n) c2_rank_ok c2_snl_nodup
    c2_indep_ok c2_deps_nodup c2_closed_ok c2c5 c2c5_reach 0 1
    (by decide) (by rw [c2_bftRun_eval]; decide)
    [Ev.evBegin 0, Ev.evEnd 0] [] c2c5_trace

/-- Witness for C3: all preconditions discharged at the concrete two-system
chain started from system 0. -/
theorem C3_witness :
    (initConfig c2ssl c2snl).counter = chainSize c2ssl c2snl ∧
    (bftRun c2ssl (bftMake c2snl)).Nodup ∧
    (∀ v, v ∈ bftRun c2ssl (bftMake c2snl) ↔ ∃ r ∈ c2snl, ReachesSys c2ssl r v) ∧
    (∀ c, SchedReach c2ssl c2snl c →
      (c.counter = 0 → ∀ v ∈ bftRun c2ssl (bftMake c2snl), Ev.evEnd v ∈ c.trace) ∧
      (Terminal c → c.counter = 0 ∧
        ∀ v, (v ∈ bftRun c2ssl (bftMake c2snl) ↔ c.trace.count (Ev.evEnd v) = 1))) :=
  C3_outer_scheduler_latch c2ssl c2snl (fun n => n) c2_rank_ok c2_snl_nodup
    c2_indep_ok c2_deps_nodup

/-- Witness for the amended C4 at subtask count 3. -/
theorem C4_witness :
    1 ≤ 3 ∧
    (statesPrepared 3 = 3 ∧
      counterBlockerInit 3 = 3 - 1 ∧
      (postedSlices 3).length = 3 - 1 ∧
      (innerExecRun 3).1 = 0 ∧
      (innerExecRun 3).2.length = 3 ∧
      (∀ i, i < 3 → i ∈ (innerExecRun 3).2)) :=
  ⟨by decide, C4_inner_latch_amended 3 (by decide)⟩

end Ecst
